import Mathlib

/-!
Verification of the core components of the news_explorer repository:
the text canonicalizer (`app.py`), the merge-commit engine
(`scripts/update_csv.py`, `scripts/merge_jpt_csv.py`, `scripts/merge_three_way.py`,
`scripts/merge_worldoil.py`) and the crawl frontier
(`jpt_scraper/spiders/jpt_latest.py`, `jpt_scraper/spiders/worldoil_news.py`).

Python strings are modelled as `List Char`.  Python's `str.upper()` / `str.lower()`
are modelled by the ASCII case maps (the repository's vocabulary is ASCII apart from
the subscript `'₂'`, which both Python and this model leave unchanged by case
mapping).  Python's `\s`, `\d`, `[A-Za-z]`, `[A-Z]` regex classes are modelled on the
ASCII range.  `pandas` timestamps are modelled as `Option Nat` (`none` = `NaT`,
order-isomorphic to the real timestamps), and a parsed row-oriented file as a list of
row structures.
-/

/-! ## Characters: ASCII classes and case maps -/

/-- Codepoint of a character, written out once so every class test is plain `Nat`
arithmetic. -/
def cp (c : Char) : Nat := c.toNat

/-- ASCII lowercase letter test (`[a-z]`). -/
def isLowerCh (c : Char) : Bool := 97 ≤ cp c && cp c ≤ 122

/-- ASCII uppercase letter test (`[A-Z]`). -/
def isUpperCh (c : Char) : Bool := 65 ≤ cp c && cp c ≤ 90

/-- ASCII digit test (`\d`, modelled on `[0-9]`). -/
def isDigitCh (c : Char) : Bool := 48 ≤ cp c && cp c ≤ 57

/-- ASCII letter test (`[A-Za-z]`). -/
def isAlphaCh (c : Char) : Bool := isUpperCh c || isLowerCh c

/-- Whitespace test (`\s` / `str.split()` / `str.strip()`), modelled on the
whitespace characters that occur in the scraped data: space, tab, CR, LF. -/
def isWsCh (c : Char) : Bool := c = ' ' || c = '\t' || c = '\r' || c = '\n'

/-- Python `str.upper()` on one character (ASCII case map). -/
def upChar (c : Char) : Char := if isLowerCh c then Char.ofNat (cp c - 32) else c

/-- Python `str.lower()` on one character (ASCII case map). -/
def downChar (c : Char) : Char := if isUpperCh c then Char.ofNat (cp c + 32) else c

/-- Python `str.upper()` on a string. -/
def pyUpper (t : List Char) : List Char := t.map upChar

/-- Python `str.lower()` on a string. -/
def pyLower (t : List Char) : List Char := t.map downChar

theorem toNat_ofNat_small (n : Nat) (h : n < 55296) : (Char.ofNat n).toNat = n := by
  rw [Char.ofNat, dif_pos (Or.inl h)]
  simp [Char.ofNatAux, Char.toNat, UInt32.toNat]

theorem char_eq_iff_cp (c d : Char) : c = d ↔ cp c = cp d := by
  constructor
  · intro h; rw [h]
  · intro h
    apply Char.eq_of_val_eq
    exact UInt32.toNat.inj h

theorem isLowerCh_iff (c : Char) : isLowerCh c = true ↔ 97 ≤ cp c ∧ cp c ≤ 122 := by
  simp [isLowerCh]

theorem isUpperCh_iff (c : Char) : isUpperCh c = true ↔ 65 ≤ cp c ∧ cp c ≤ 90 := by
  simp [isUpperCh]

theorem isDigitCh_iff (c : Char) : isDigitCh c = true ↔ 48 ≤ cp c ∧ cp c ≤ 57 := by
  simp [isDigitCh]

theorem isAlphaCh_iff (c : Char) :
    isAlphaCh c = true ↔ (65 ≤ cp c ∧ cp c ≤ 90) ∨ (97 ≤ cp c ∧ cp c ≤ 122) := by
  simp [isAlphaCh, isUpperCh, isLowerCh]

theorem isWsCh_iff (c : Char) :
    isWsCh c = true ↔ cp c = 32 ∨ cp c = 9 ∨ cp c = 13 ∨ cp c = 10 := by
  have h32 : cp ' ' = 32 := by decide
  have h9 : cp '\t' = 9 := by decide
  have h13 : cp '\r' = 13 := by decide
  have h10 : cp '\n' = 10 := by decide
  simp only [isWsCh, Bool.or_eq_true, decide_eq_true_eq, char_eq_iff_cp, h32, h9, h13, h10,
    or_assoc]

theorem cp_upChar_of_lower (c : Char) (h : isLowerCh c = true) :
    cp (upChar c) = cp c - 32 := by
  rw [upChar, if_pos h]
  rw [isLowerCh_iff] at h
  exact toNat_ofNat_small _ (by omega)

theorem upChar_of_not_lower (c : Char) (h : ¬ isLowerCh c = true) : upChar c = c := by
  rw [upChar, if_neg h]

theorem cp_downChar_of_upper (c : Char) (h : isUpperCh c = true) :
    cp (downChar c) = cp c + 32 := by
  rw [downChar, if_pos h]
  rw [isUpperCh_iff] at h
  exact toNat_ofNat_small _ (by omega)

theorem downChar_of_not_upper (c : Char) (h : ¬ isUpperCh c = true) : downChar c = c := by
  rw [downChar, if_neg h]

/-- Codepoint description of `upChar`. -/
theorem cp_upChar (c : Char) :
    cp (upChar c) = if 97 ≤ cp c ∧ cp c ≤ 122 then cp c - 32 else cp c := by
  by_cases h : isLowerCh c = true
  · rw [cp_upChar_of_lower c h, if_pos ((isLowerCh_iff c).mp h)]
  · rw [upChar_of_not_lower c h, if_neg (fun hc => h ((isLowerCh_iff c).mpr hc))]

/-- Codepoint description of `downChar`. -/
theorem cp_downChar (c : Char) :
    cp (downChar c) = if 65 ≤ cp c ∧ cp c ≤ 90 then cp c + 32 else cp c := by
  by_cases h : isUpperCh c = true
  · rw [cp_downChar_of_upper c h, if_pos ((isUpperCh_iff c).mp h)]
  · rw [downChar_of_not_upper c h, if_neg (fun hc => h ((isUpperCh_iff c).mpr hc))]

/-- `upChar` is idempotent. -/
theorem upChar_upChar (c : Char) : upChar (upChar c) = upChar c := by
  apply upChar_of_not_lower
  rw [isLowerCh_iff, cp_upChar]
  by_cases h : 97 ≤ cp c ∧ cp c ≤ 122 <;> simp [h] <;> omega

/-- Lowering then uppering equals uppering (per ASCII character). -/
theorem upChar_downChar (c : Char) : upChar (downChar c) = upChar c := by
  rw [char_eq_iff_cp, cp_upChar, cp_upChar, cp_downChar]
  by_cases h : 65 ≤ cp c ∧ cp c ≤ 90
  · rw [if_pos h, if_pos (by omega), if_neg (by omega)]
    omega
  · rw [if_neg h]

theorem downChar_downChar (c : Char) : downChar (downChar c) = downChar c := by
  apply downChar_of_not_upper
  rw [isUpperCh_iff, cp_downChar]
  by_cases h : 65 ≤ cp c ∧ cp c ≤ 90 <;> simp [h] <;> omega

theorem isUpper_downChar (c : Char) : isUpperCh (downChar c) = false := by
  rw [Bool.eq_false_iff]
  intro h
  rw [isUpperCh_iff, cp_downChar] at h
  by_cases hc : 65 ≤ cp c ∧ cp c ≤ 90 <;> simp [hc] at h <;> omega

theorem isLower_upChar (c : Char) : isLowerCh (upChar c) = false := by
  rw [Bool.eq_false_iff]
  intro h
  rw [isLowerCh_iff, cp_upChar] at h
  by_cases hc : 97 ≤ cp c ∧ cp c ≤ 122 <;> simp [hc] at h <;> omega

theorem isAlpha_upChar (c : Char) : isAlphaCh (upChar c) = isAlphaCh c := by
  rw [Bool.eq_iff_iff, isAlphaCh_iff, isAlphaCh_iff, cp_upChar]
  by_cases hl : 97 ≤ cp c ∧ cp c ≤ 122 <;> simp [hl] <;> omega

theorem isAlpha_downChar (c : Char) : isAlphaCh (downChar c) = isAlphaCh c := by
  rw [Bool.eq_iff_iff, isAlphaCh_iff, isAlphaCh_iff, cp_downChar]
  by_cases hu : 65 ≤ cp c ∧ cp c ≤ 90 <;> simp [hu] <;> omega

theorem isDigit_upChar (c : Char) : isDigitCh (upChar c) = isDigitCh c := by
  rw [Bool.eq_iff_iff, isDigitCh_iff, isDigitCh_iff, cp_upChar]
  by_cases hl : 97 ≤ cp c ∧ cp c ≤ 122 <;> simp [hl] <;> omega

theorem isDigit_downChar (c : Char) : isDigitCh (downChar c) = isDigitCh c := by
  rw [Bool.eq_iff_iff, isDigitCh_iff, isDigitCh_iff, cp_downChar]
  by_cases hu : 65 ≤ cp c ∧ cp c ≤ 90 <;> simp [hu] <;> omega

theorem isWs_upChar (c : Char) : isWsCh (upChar c) = isWsCh c := by
  rw [Bool.eq_iff_iff, isWsCh_iff, isWsCh_iff, cp_upChar]
  by_cases hl : 97 ≤ cp c ∧ cp c ≤ 122 <;> simp [hl] <;> omega

theorem isWs_downChar (c : Char) : isWsCh (downChar c) = isWsCh c := by
  rw [Bool.eq_iff_iff, isWsCh_iff, isWsCh_iff, cp_downChar]
  by_cases hu : 65 ≤ cp c ∧ cp c ≤ 90 <;> simp [hu] <;> omega

/-- Case maps preserve any character whose codepoint is outside the ASCII letter
ranges, stated through an equality test against a fixed non-letter character. -/
theorem isAlphaCh_eq_false_iff (c : Char) :
    isAlphaCh c = false ↔ ¬ ((65 ≤ cp c ∧ cp c ≤ 90) ∨ (97 ≤ cp c ∧ cp c ≤ 122)) := by
  constructor
  · intro h hc
    rw [← isAlphaCh_iff] at hc
    rw [hc] at h
    exact absurd h (by simp)
  · intro h
    rcases Bool.eq_false_or_eq_true (isAlphaCh c) with ht | hf
    · exact absurd ((isAlphaCh_iff c).mp ht) h
    · exact hf

theorem upChar_eq_fixed_iff (c d : Char) (hd : isAlphaCh d = false) :
    (upChar c = d) ↔ c = d := by
  rw [isAlphaCh_eq_false_iff] at hd
  rw [char_eq_iff_cp, char_eq_iff_cp, cp_upChar]
  by_cases hl : 97 ≤ cp c ∧ cp c ≤ 122 <;> simp [hl] <;> omega

theorem downChar_eq_fixed_iff (c d : Char) (hd : isAlphaCh d = false) :
    (downChar c = d) ↔ c = d := by
  rw [isAlphaCh_eq_false_iff] at hd
  rw [char_eq_iff_cp, char_eq_iff_cp, cp_downChar]
  by_cases hu : 65 ≤ cp c ∧ cp c ≤ 90 <;> simp [hu] <;> omega

theorem isWs_not_alpha (c : Char) (h : isWsCh c = true) : isAlphaCh c = false := by
  rw [isWsCh_iff] at h
  rw [isAlphaCh_eq_false_iff]
  omega

/-! ## Strings: whitespace words, split with kept separators, join -/

/-- Separator characters of `WORD_SPLIT_RE`, the dash and the slash, apart from
whitespace. -/
def isSepCh (c : Char) : Bool := c = '-' || c = '/'

/-- Concatenate the pieces of a split back together (`"".join`). -/
def joinAll : List (List Char) → List Char
  | [] => []
  | p :: ps => p ++ joinAll ps

/-- Python `str.strip()`. -/
def pyStrip (l : List Char) : List Char :=
  ((l.dropWhile isWsCh).reverse.dropWhile isWsCh).reverse

/-- Does the string start with a whitespace character? -/
def headWs : List Char → Bool
  | [] => false
  | c :: _ => isWsCh c

/-- Python `str.split()` (no argument): the maximal whitespace-free words, in
order. -/
def words : List Char → List (List Char)
  | [] => []
  | c :: cs =>
    if isWsCh c then words cs
    else if headWs cs then [c] :: words cs
    else
      match words cs with
      | w :: ws1 => (c :: w) :: ws1
      | [] => [[c]]

/-- Python `" ".join(...)`. -/
def joinSpace : List (List Char) → List Char
  | [] => []
  | [w] => w
  | w :: x :: ws1 => w ++ ' ' :: joinSpace (x :: ws1)

/-- `_normalize_text` from `app.py`: `" ".join(str(x).split()).strip()`.
The same word-normalization also realizes `re.sub(r"\s+", " ", out).strip()` in
`normalize_phrase`, which is the identical transformation: every maximal
whitespace run is replaced by one space and the ends are stripped. -/
def normalize_text (l : List Char) : List Char := pyStrip (joinSpace (words l))

/-- The split on `WORD_SPLIT_RE` with its capture group kept: the result alternates (possibly empty)
non-separator tokens with separator pieces, beginning and ending with a token;
each whitespace separator piece is a maximal whitespace run, each `-` or `/`
separator piece is a single character. -/
def tokenize : List Char → List (List Char)
  | [] => [[]]
  | c :: cs =>
    if isSepCh c then [] :: [c] :: tokenize cs
    else if isWsCh c then
      if headWs cs then
        match tokenize cs with
        | [] :: run :: rest => [] :: (c :: run) :: rest
        | ps => [] :: [c] :: ps
      else [] :: [c] :: tokenize cs
    else
      match tokenize cs with
      | t :: rest => (c :: t) :: rest
      | [] => [[c]]

/-! ## The canonicalizer (`app.py`) -/

/-- `BASE_ACRONYMS` from `app.py`. -/
def BASE_ACRONYMS : List (List Char) :=
  ["AI".data, "ML".data, "US".data, "UK".data, "UAE".data, "LNG".data, "CCS".data,
   "CO2".data, "CO₂".data, "M&A".data, "HSE".data, "OPEC".data,
   "NGL".data, "FPSO".data, "FLNG".data, "EOR".data, "IOR".data, "NPT".data,
   "R&D".data, "API".data, "ISO".data, "NACE".data,
   "IIoT".data, "OT".data, "IT".data, "SCADA".data, "PLC".data, "DCS".data,
   "ESG".data, "GHG".data]

/-- `re.fullmatch(r"[A-Za-z]{1,4}\d{1,3}", t)`: one to four ASCII letters followed
by one to three digits, and nothing else. -/
def reLettersDigits (t : List Char) : Bool :=
  let ls := t.takeWhile isAlphaCh
  let ds := t.dropWhile isAlphaCh
  decide (1 ≤ ls.length) && decide (ls.length ≤ 4) &&
    decide (1 ≤ ds.length) && decide (ds.length ≤ 3) && ds.all isDigitCh

/-- `re.fullmatch(r"[A-Z]{2,}", t)`. -/
def reAllCaps (t : List Char) : Bool := decide (2 ≤ t.length) && t.all isUpperCh

/-- `_looks_like_acronym` from `app.py`.  The acronym set is modelled as a list of
strings; Python's `t.upper() in acronyms` is membership of the upper-cased token. -/
def looks_like_acronym (tok : List Char) (A : List (List Char)) : Bool :=
  if tok = [] then false
  else
    let t := pyStrip tok
    A.contains (pyUpper t) || reLettersDigits t || reAllCaps t ||
      (t.any (fun c => c = '&' || c = '.') && t.any isAlphaCh)

/-- `_smart_title_token` from `app.py`. -/
def smart_title_token (tok : List Char) (A : List (List Char)) : List Char :=
  let raw := pyStrip tok
  if raw = [] then tok
  else if raw.all isWsCh || raw = ['-'] || raw = ['/'] then raw
  else if looks_like_acronym raw A then
    (let up := pyUpper raw
     if up = "CO₂".data then "CO2".data else up)
  else if (raw.drop 1).any isUpperCh && raw.any isLowerCh then raw
  else
    match raw with
    | [] => []
    | c :: cs => upChar c :: pyLower cs

/-- Python `str.replace(pat, rep)`: left-to-right, non-overlapping, the scan
resumes after each replacement.  Fuelled so that the recursion is structural; the
fuel is instantiated with the string length, which bounds the number of steps. -/
def replaceAllF : Nat → List Char → List Char → List Char → List Char
  | 0, _, _, l => l
  | fuel + 1, pat, rep, l =>
    match l with
    | [] => []
    | c :: cs =>
      if pat ≠ [] ∧ pat.isPrefixOf (c :: cs) then
        rep ++ replaceAllF fuel pat rep ((c :: cs).drop pat.length)
      else c :: replaceAllF fuel pat rep cs

/-- Python `s.replace(pat, rep)`. -/
def pyReplace (l pat rep : List Char) : List Char := replaceAllF l.length pat rep l

/-- `normalize_phrase` from `app.py`: normalize whitespace, return `""` if empty,
split on `WORD_SPLIT_RE`, map `_smart_title_token` over the parts, join,
re-collapse whitespace, and fold stray `Co2`/`Co₂` spellings to `CO2`. -/
def normalize_phrase (s : List Char) (A : List (List Char)) : List Char :=
  if normalize_text s = [] then []
  else
    pyReplace
      (pyReplace
        (normalize_text
          (joinAll ((tokenize (normalize_text s)).map (fun p => smart_title_token p A))))
        "Co2".data "CO2".data)
      "Co₂".data "CO2".data

/-! ## Structure of `tokenize` -/

/-- A non-separator token: no whitespace, no dash, no slash. -/
def TokOk (t : List Char) : Prop := ∀ c ∈ t, isWsCh c = false ∧ isSepCh c = false

/-- A separator piece of the split: a single dash, a single slash, or a nonempty
whitespace run. -/
def SepPiece (s : List Char) : Prop :=
  s = ['-'] ∨ s = ['/'] ∨ (s ≠ [] ∧ ∀ c ∈ s, isWsCh c = true)

theorem ws_not_sep (c : Char) (h : isWsCh c = true) : isSepCh c = false := by
  rw [isWsCh_iff] at h
  have h1 : ¬ (c = '-') := by
    rw [char_eq_iff_cp]
    have : cp '-' = 45 := by decide
    omega
  have h2 : ¬ (c = '/') := by
    rw [char_eq_iff_cp]
    have : cp '/' = 47 := by decide
    omega
  simp [isSepCh, h1, h2]

theorem sep_not_ws (c : Char) (h : isSepCh c = true) : isWsCh c = false := by
  rcases Bool.eq_false_or_eq_true (isWsCh c) with hw | hw
  · rw [ws_not_sep c hw] at h
    exact absurd h (by simp)
  · exact hw

theorem tokenize_ne_nil (l : List Char) : tokenize l ≠ [] := by
  cases l with
  | nil => simp [tokenize]
  | cons c cs =>
    rw [tokenize]
    split
    · simp
    · split
      · split
        · split <;> simp
        · simp
      · split <;> simp

theorem tokenize_sep (c : Char) (cs : List Char) (h : isSepCh c = true) :
    tokenize (c :: cs) = [] :: [c] :: tokenize cs := by
  rw [tokenize, if_pos h]

theorem tokenize_ws_new (c : Char) (cs : List Char) (h : isWsCh c = true)
    (hcs : headWs cs = false) :
    tokenize (c :: cs) = [] :: [c] :: tokenize cs := by
  rw [tokenize, if_neg (by simp [ws_not_sep c h]), if_pos h, if_neg (by simp [hcs])]

theorem tokenize_tok (c : Char) (cs : List Char) (hw : isWsCh c = false)
    (hs : isSepCh c = false) (t : List Char) (rest : List (List Char))
    (hcs : tokenize cs = t :: rest) :
    tokenize (c :: cs) = (c :: t) :: rest := by
  rw [tokenize, if_neg (by simp [hs]), if_neg (by simp [hw]), hcs]

/-- When the input starts with whitespace, the split starts with an empty token
followed by a whitespace run. -/
theorem tokenize_headWs (cs : List Char) (h : headWs cs = true) :
    ∃ run rest, tokenize cs = [] :: run :: rest ∧ headWs run = true := by
  induction cs with
  | nil => simp [headWs] at h
  | cons c cs ih =>
    have hc : isWsCh c = true := h
    by_cases hcs : headWs cs = true
    · obtain ⟨run, rest, heq, hrun⟩ := ih hcs
      refine ⟨c :: run, rest, ?_, hc⟩
      rw [tokenize, if_neg (by simp [ws_not_sep c hc]), if_pos hc, if_pos hcs, heq]
    · refine ⟨[c], tokenize cs, ?_, hc⟩
      exact tokenize_ws_new c cs hc (by simpa using hcs)

theorem tokenize_ws_merge (c : Char) (cs : List Char) (h : isWsCh c = true)
    (hcs : headWs cs = true) (run : List Char) (rest : List (List Char))
    (heq : tokenize cs = [] :: run :: rest) :
    tokenize (c :: cs) = [] :: (c :: run) :: rest := by
  rw [tokenize, if_neg (by simp [ws_not_sep c h]), if_pos h, if_pos hcs, heq]

/-- The pieces of the split concatenate back to the input string. -/
theorem joinAll_tokenize (l : List Char) : joinAll (tokenize l) = l := by
  induction l with
  | nil => simp [tokenize, joinAll]
  | cons c cs ih =>
    by_cases hs : isSepCh c = true
    · rw [tokenize_sep c cs hs]
      simp [joinAll, ih]
    · by_cases hw : isWsCh c = true
      · by_cases hcs : headWs cs = true
        · obtain ⟨run, rest, heq, _⟩ := tokenize_headWs cs hcs
          rw [tokenize_ws_merge c cs hw hcs run rest heq]
          rw [heq] at ih
          simp [joinAll] at ih ⊢
          exact ih
        · rw [tokenize_ws_new c cs hw (by simpa using hcs)]
          simp [joinAll, ih]
      · obtain ⟨t, rest, heq⟩ : ∃ t rest, tokenize cs = t :: rest := by
          cases htk : tokenize cs with
          | nil => exact absurd htk (tokenize_ne_nil cs)
          | cons t rest => exact ⟨t, rest, rfl⟩
        rw [tokenize_tok c cs (by simpa using hw) (by simpa using hs) t rest heq]
        rw [heq] at ih
        simp [joinAll] at ih ⊢
        exact ih

/-- Alternating shape of a split: token, separator, token, …, token; after a
whitespace separator the remainder never starts with more whitespace (whitespace
runs are maximal). -/
inductive Alt : List (List Char) → Prop
  | single (t : List Char) (ht : TokOk t) : Alt [t]
  | cons (t s : List Char) (rest : List (List Char)) (ht : TokOk t) (hs : SepPiece s)
      (hmax : (∀ c ∈ s, isWsCh c = true) → headWs (joinAll rest) = false)
      (hrest : Alt rest) : Alt (t :: s :: rest)

theorem Alt_head_tok (t : List Char) (rest : List (List Char)) (h : Alt (t :: rest)) :
    TokOk t := by
  cases h with
  | single _ ht => exact ht
  | cons _ _ _ ht _ _ _ => exact ht

theorem Alt_cons_char (c : Char) (t : List Char) (rest : List (List Char))
    (hw : isWsCh c = false) (hs : isSepCh c = false) (h : Alt (t :: rest)) :
    Alt ((c :: t) :: rest) := by
  have hct : TokOk (c :: t) := by
    intro x hx
    rcases List.mem_cons.mp hx with rfl | hx
    · exact ⟨hw, hs⟩
    · exact Alt_head_tok t rest h x hx
  cases h with
  | single _ ht => exact Alt.single _ hct
  | cons _ s r _ hsp hmax hrest => exact Alt.cons _ s r hct hsp hmax hrest

theorem Alt_tokenize (l : List Char) : Alt (tokenize l) := by
  induction l with
  | nil => exact Alt.single [] (by simp [TokOk])
  | cons c cs ih =>
    by_cases hs : isSepCh c = true
    · rw [tokenize_sep c cs hs]
      have hcd : c = '-' ∨ c = '/' := by
        simpa [isSepCh] using hs
      refine Alt.cons [] [c] (tokenize cs) (by simp [TokOk]) ?_ ?_ ih
      · rcases hcd with h | h
        · exact Or.inl (by rw [h])
        · exact Or.inr (Or.inl (by rw [h]))
      · intro hws
        have := hws c (by simp)
        rw [sep_not_ws c hs] at this
        exact absurd this (by simp)
    · by_cases hw : isWsCh c = true
      · by_cases hcs : headWs cs = true
        · obtain ⟨run, rest, heq, hrun⟩ := tokenize_headWs cs hcs
          rw [tokenize_ws_merge c cs hw hcs run rest heq]
          rw [heq] at ih
          cases ih with
          | cons _ _ _ ht hsp hmax hrest =>
            have hrunws : ∀ x ∈ run, isWsCh x = true := by
              rcases hsp with h | h | h
              · exfalso
                subst h
                simp [headWs] at hrun
                exact absurd hrun (by decide)
              · exfalso
                subst h
                simp [headWs] at hrun
                exact absurd hrun (by decide)
              · exact h.2
            refine Alt.cons [] (c :: run) rest (by simp [TokOk]) ?_ ?_ hrest
            · refine Or.inr (Or.inr ⟨by simp, ?_⟩)
              intro x hx
              rcases List.mem_cons.mp hx with rfl | hx
              · exact hw
              · exact hrunws x hx
            · intro _
              exact hmax hrunws
        · rw [tokenize_ws_new c cs hw (by simpa using hcs)]
          refine Alt.cons [] [c] (tokenize cs) (by simp [TokOk]) ?_ ?_ ih
          · refine Or.inr (Or.inr ⟨by simp, ?_⟩)
            intro x hx
            rcases List.mem_cons.mp hx with rfl | hx
            · exact hw
            · simp at hx
          · intro _
            rw [joinAll_tokenize]
            simpa using hcs
      · obtain ⟨t, rest, heq⟩ : ∃ t rest, tokenize cs = t :: rest := by
          cases htk : tokenize cs with
          | nil => exact absurd htk (tokenize_ne_nil cs)
          | cons t rest => exact ⟨t, rest, rfl⟩
        rw [tokenize_tok c cs (by simpa using hw) (by simpa using hs) t rest heq]
        rw [heq] at ih
        exact Alt_cons_char c t rest (by simpa using hw) (by simpa using hs) ih

/-- A pure token splits to itself. -/
theorem tokenize_tokOnly (t : List Char) (ht : TokOk t) : tokenize t = [t] := by
  induction t with
  | nil => rfl
  | cons c t ih =>
    have hc := ht c (by simp)
    have ht' : TokOk t := fun x hx => ht x (by simp [hx])
    exact tokenize_tok c t hc.1 hc.2 t [] (ih ht')

/-- Prepend a string to the first piece of a split. -/
def consHead (t : List Char) : List (List Char) → List (List Char)
  | p :: ps => (t ++ p) :: ps
  | [] => [t]

theorem tokenize_append_tok (t : List Char) (ht : TokOk t) (r : List Char) :
    tokenize (t ++ r) = consHead t (tokenize r) := by
  induction t with
  | nil =>
    obtain ⟨p, ps, heq⟩ : ∃ p ps, tokenize r = p :: ps := by
      cases htk : tokenize r with
      | nil => exact absurd htk (tokenize_ne_nil r)
      | cons p ps => exact ⟨p, ps, rfl⟩
    simp [heq, consHead]
  | cons c t ih =>
    have hc := ht c (by simp)
    have ht' : TokOk t := fun x hx => ht x (by simp [hx])
    obtain ⟨p, ps, heq⟩ : ∃ p ps, tokenize r = p :: ps := by
      cases htk : tokenize r with
      | nil => exact absurd htk (tokenize_ne_nil r)
      | cons p ps => exact ⟨p, ps, rfl⟩
    have ih' := ih ht'
    rw [heq, consHead] at ih'
    have : tokenize (c :: (t ++ r)) = (c :: (t ++ p)) :: ps :=
      tokenize_tok c (t ++ r) hc.1 hc.2 (t ++ p) ps ih'
    rw [List.cons_append, this, heq, consHead]
    simp

theorem tokenize_wsrun_append (s : List Char) (hne : s ≠ [])
    (hws : ∀ c ∈ s, isWsCh c = true) (r : List Char) (hr : headWs r = false) :
    tokenize (s ++ r) = [] :: s :: tokenize r := by
  induction s with
  | nil => exact absurd rfl hne
  | cons c s ih =>
    have hc := hws c (by simp)
    cases s with
    | nil =>
      simpa using tokenize_ws_new c r hc hr
    | cons d s' =>
      have hd := hws d (by simp)
      have ih' := ih (by simp) (fun x hx => hws x (by simp [List.mem_cons] at hx ⊢; tauto))
      have hhead : headWs ((d :: s') ++ r) = true := by simp [headWs, hd]
      have := tokenize_ws_merge c ((d :: s') ++ r) hc hhead (d :: s') (tokenize r) ih'
      simpa using this

/-- Splitting is a left inverse of joining, on well-formed piece lists. -/
theorem tokenize_joinAll_of_Alt (ps : List (List Char)) (h : Alt ps) :
    tokenize (joinAll ps) = ps := by
  induction h with
  | single t ht =>
    have : joinAll [t] = t := by simp [joinAll]
    rw [this, tokenize_tokOnly t ht]
  | cons t s rest ht hsp hmax hrest ih =>
    have hjoin : joinAll (t :: s :: rest) = t ++ (s ++ joinAll rest) := by
      simp [joinAll]
    rw [hjoin, tokenize_append_tok t ht]
    rcases hsp with h1 | h1 | h1
    · subst h1
      have hsep : isSepCh '-' = true := by decide
      rw [show ['-'] ++ joinAll rest = '-' :: joinAll rest from rfl,
        tokenize_sep '-' (joinAll rest) hsep, ih, consHead]
      simp
    · subst h1
      have hsep : isSepCh '/' = true := by decide
      rw [show ['/'] ++ joinAll rest = '/' :: joinAll rest from rfl,
        tokenize_sep '/' (joinAll rest) hsep, ih, consHead]
      simp
    · rw [tokenize_wsrun_append s h1.1 h1.2 (joinAll rest) (hmax h1.2), ih, consHead]
      simp

/-! ## `smart_title_token` on separator pieces and on tokens -/

/-- Tokens free of ASCII digits and of the subscript two. -/
def CleanTok (t : List Char) : Prop := ∀ c ∈ t, isDigitCh c = false ∧ c ≠ '₂'

theorem isSep_upChar (c : Char) : isSepCh (upChar c) = isSepCh c := by
  rw [Bool.eq_iff_iff]
  simp only [isSepCh, Bool.or_eq_true, decide_eq_true_eq]
  rw [upChar_eq_fixed_iff c '-' (by decide), upChar_eq_fixed_iff c '/' (by decide)]

theorem isSep_downChar (c : Char) : isSepCh (downChar c) = isSepCh c := by
  rw [Bool.eq_iff_iff]
  simp only [isSepCh, Bool.or_eq_true, decide_eq_true_eq]
  rw [downChar_eq_fixed_iff c '-' (by decide), downChar_eq_fixed_iff c '/' (by decide)]

theorem dropWhile_ws_eq_self (l : List Char) (h : headWs l = false) :
    l.dropWhile isWsCh = l := by
  cases l with
  | nil => rfl
  | cons c cs =>
    have : isWsCh c = false := h
    simp [List.dropWhile, this]

theorem pyStrip_tokOk (t : List Char) (ht : TokOk t) : pyStrip t = t := by
  have h1 : t.dropWhile isWsCh = t := by
    apply dropWhile_ws_eq_self
    cases t with
    | nil => rfl
    | cons c cs => exact (ht c (by simp)).1
  have h2 : t.reverse.dropWhile isWsCh = t.reverse := by
    apply dropWhile_ws_eq_self
    cases hr : t.reverse with
    | nil => rfl
    | cons c cs =>
      have : c ∈ t := by
        rw [← List.mem_reverse, hr]
        simp
      exact (ht c this).1
  rw [pyStrip, h1, h2, List.reverse_reverse]

theorem pyStrip_allWs (s : List Char) (h : ∀ c ∈ s, isWsCh c = true) : pyStrip s = [] := by
  have h1 : s.dropWhile isWsCh = [] := by
    rw [List.dropWhile_eq_nil_iff]
    exact fun c hc => h c hc
  simp [pyStrip, h1]

theorem smart_nil (A : List (List Char)) : smart_title_token [] A = [] := by
  simp [smart_title_token, pyStrip]

/-- Separator pieces are returned unchanged by `_smart_title_token`. -/
theorem smart_sepPiece (s : List Char) (hs : SepPiece s) (A : List (List Char)) :
    smart_title_token s A = s := by
  rcases hs with h | h | h
  · subst h
    have h1 : pyStrip ['-'] = ['-'] := by decide
    simp [smart_title_token, h1]
  · subst h
    have h1 : pyStrip ['/'] = ['/'] := by decide
    simp [smart_title_token, h1]
  · have h1 : pyStrip s = [] := pyStrip_allWs s h.2
    simp [smart_title_token, h1]

/-- On a whitespace-free, separator-free token the four possible outcomes of
`_smart_title_token`: unchanged, upper-cased, the special subscript rendering, or
first-upper-rest-lower. -/
theorem smart_tok_cases (t : List Char) (A : List (List Char)) (hne : t ≠ [])
    (ht : TokOk t) :
    smart_title_token t A = t ∨
    (looks_like_acronym t A = true ∧ pyUpper t ≠ "CO₂".data ∧
      smart_title_token t A = pyUpper t) ∨
    (looks_like_acronym t A = true ∧ pyUpper t = "CO₂".data ∧
      smart_title_token t A = "CO2".data) ∨
    (∃ c cs, t = c :: cs ∧ looks_like_acronym t A = false ∧
      smart_title_token t A = upChar c :: pyLower cs) := by
  have hstrip : pyStrip t = t := pyStrip_tokOk t ht
  obtain ⟨c, cs, rfl⟩ : ∃ c cs, t = c :: cs := by
    cases t with
    | nil => exact absurd rfl hne
    | cons c cs => exact ⟨c, cs, rfl⟩
  have hcw := (ht c (by simp)).1
  have hcs := (ht c (by simp)).2
  have hall : (c :: cs).all isWsCh = false := by
    simp [List.all_cons, hcw]
  have hdash : ¬ (c :: cs) = ['-'] := by
    intro h
    have : c = '-' := (List.cons_eq_cons.mp h).1
    subst this
    exact absurd hcs (by decide)
  have hslash : ¬ (c :: cs) = ['/'] := by
    intro h
    have : c = '/' := (List.cons_eq_cons.mp h).1
    subst this
    exact absurd hcs (by decide)
  rw [smart_title_token]
  simp only [hstrip]
  rw [if_neg (by simp), if_neg (by simp [hall, hdash, hslash])]
  by_cases hacr : looks_like_acronym (c :: cs) A = true
  · rw [if_pos hacr]
    by_cases hco : pyUpper (c :: cs) = "CO₂".data
    · right; right; left
      exact ⟨hacr, hco, by rw [if_pos hco]⟩
    · right; left
      exact ⟨hacr, hco, by simp only [if_neg hco]⟩
  · rw [if_neg hacr]
    by_cases hcam : (((c :: cs).drop 1).any isUpperCh && (c :: cs).any isLowerCh) = true
    · left
      rw [if_pos hcam]
    · right; right; right
      exact ⟨c, cs, rfl, by simpa using hacr, by rw [if_neg hcam]⟩

theorem tokOk_pyUpper (t : List Char) (ht : TokOk t) : TokOk (pyUpper t) := by
  intro x hx
  rw [pyUpper, List.mem_map] at hx
  obtain ⟨c, hc, rfl⟩ := hx
  have := ht c hc
  rw [isWs_upChar, isSep_upChar]
  exact this

theorem cleanTok_pyUpper (t : List Char) (ht : CleanTok t) : CleanTok (pyUpper t) := by
  intro x hx
  rw [pyUpper, List.mem_map] at hx
  obtain ⟨c, hc, rfl⟩ := hx
  have := ht c hc
  rw [isDigit_upChar]
  exact ⟨this.1, fun h => this.2 ((upChar_eq_fixed_iff c '₂' (by decide)).mp h)⟩

/-- Under `CleanTok` the subscript branch is unreachable. -/
theorem no_subscript_branch (t : List Char) (ht : CleanTok t) :
    pyUpper t ≠ "CO₂".data := by
  intro h
  have h2 : '₂' ∈ pyUpper t := by
    rw [h]
    decide
  rw [pyUpper, List.mem_map] at h2
  obtain ⟨c, hc, hup⟩ := h2
  rw [upChar_eq_fixed_iff c '₂' (by decide)] at hup
  exact (ht c hc).2 hup

/-- Refined case analysis for digit-free subscript-free tokens. -/
theorem smart_tok_cases_clean (t : List Char) (A : List (List Char)) (hne : t ≠ [])
    (ht : TokOk t) (hcl : CleanTok t) :
    smart_title_token t A = t ∨
    (looks_like_acronym t A = true ∧ smart_title_token t A = pyUpper t) ∨
    (∃ c cs, t = c :: cs ∧ looks_like_acronym t A = false ∧
      smart_title_token t A = upChar c :: pyLower cs) := by
  rcases smart_tok_cases t A hne ht with h | h | h | h
  · exact Or.inl h
  · exact Or.inr (Or.inl ⟨h.1, h.2.2⟩)
  · exact absurd h.2.1 (no_subscript_branch t hcl)
  · exact Or.inr (Or.inr h)

theorem smart_tokOk (t : List Char) (A : List (List Char)) (ht : TokOk t) :
    TokOk (smart_title_token t A) := by
  by_cases hne : t = []
  · subst hne
    rw [smart_nil]
    simp [TokOk]
  · rcases smart_tok_cases t A hne ht with h | h | h | h
    · rw [h]; exact ht
    · rw [h.2.2]; exact tokOk_pyUpper t ht
    · rw [h.2.2]; unfold TokOk; decide
    · obtain ⟨c, cs, rfl, _, heq⟩ := h
      rw [heq]
      intro x hx
      rcases List.mem_cons.mp hx with rfl | hx
      · have := ht c (by simp)
        rw [isWs_upChar, isSep_upChar]
        exact this
      · rw [pyLower, List.mem_map] at hx
        obtain ⟨d, hd, rfl⟩ := hx
        have := ht d (by simp [hd])
        rw [isWs_downChar, isSep_downChar]
        exact this

theorem smart_clean (t : List Char) (A : List (List Char)) (ht : TokOk t)
    (hcl : CleanTok t) : CleanTok (smart_title_token t A) := by
  by_cases hne : t = []
  · subst hne
    rw [smart_nil]
    simp [CleanTok]
  · rcases smart_tok_cases_clean t A hne ht hcl with h | h | h
    · rw [h]; exact hcl
    · rw [h.2]; exact cleanTok_pyUpper t hcl
    · obtain ⟨c, cs, rfl, _, heq⟩ := h
      rw [heq]
      intro x hx
      rcases List.mem_cons.mp hx with rfl | hx
      · have := hcl c (by simp)
        rw [isDigit_upChar]
        exact ⟨this.1, fun h => this.2 ((upChar_eq_fixed_iff c '₂' (by decide)).mp h)⟩
      · rw [pyLower, List.mem_map] at hx
        obtain ⟨d, hd, rfl⟩ := hx
        have := hcl d (by simp [hd])
        rw [isDigit_downChar]
        exact ⟨this.1, fun h => this.2 ((downChar_eq_fixed_iff d '₂' (by decide)).mp h)⟩

theorem smart_length (t : List Char) (A : List (List Char)) (ht : TokOk t) :
    (smart_title_token t A).length = t.length := by
  by_cases hne : t = []
  · subst hne
    rw [smart_nil]
  · rcases smart_tok_cases t A hne ht with h | h | h | h
    · rw [h]
    · rw [h.2.2, pyUpper, List.length_map]
    · rw [h.2.2]
      have : (pyUpper t).length = t.length := by rw [pyUpper, List.length_map]
      rw [h.2.1] at this
      rw [← this]
      decide
    · obtain ⟨c, cs, rfl, _, heq⟩ := h
      rw [heq]
      simp [pyLower]

/-! ## Idempotence of `smart_title_token` on digit-free subscript-free tokens -/

theorem pyUpper_pyUpper (t : List Char) : pyUpper (pyUpper t) = pyUpper t := by
  simp only [pyUpper, List.map_map]
  exact List.map_congr_left (fun c _ => upChar_upChar c)

theorem pyLower_pyLower (t : List Char) : pyLower (pyLower t) = pyLower t := by
  simp only [pyLower, List.map_map]
  exact List.map_congr_left (fun c _ => downChar_downChar c)

theorem pyUpper_cap (c : Char) (cs : List Char) :
    pyUpper (upChar c :: pyLower cs) = pyUpper (c :: cs) := by
  simp only [pyUpper, pyLower, List.map_cons, List.map_map]
  rw [upChar_upChar]
  congr 1
  exact List.map_congr_left (fun d _ => upChar_downChar d)

theorem pyUpper_of_allUpper (t : List Char) (h : t.all isUpperCh = true) :
    pyUpper t = t := by
  rw [pyUpper]
  rw [List.all_eq_true] at h
  have hmap : t.map upChar = t.map id := by
    apply List.map_congr_left
    intro c hc
    have hu := h c hc
    apply upChar_of_not_lower
    rw [isUpperCh_iff] at hu
    rw [isLowerCh_iff]
    omega
  rw [hmap, List.map_id]

theorem reLettersDigits_false_of_clean (t : List Char) (hcl : CleanTok t) :
    reLettersDigits t = false := by
  rw [Bool.eq_false_iff]
  intro h
  rw [reLettersDigits] at h
  simp only [Bool.and_eq_true, decide_eq_true_eq] at h
  obtain ⟨⟨⟨⟨_, _⟩, hds⟩, _⟩, hall⟩ := h
  obtain ⟨d, hd⟩ : ∃ d, d ∈ t.dropWhile isAlphaCh := by
    cases hx : t.dropWhile isAlphaCh with
    | nil => rw [hx] at hds; simp at hds
    | cons d ds => exact ⟨d, List.mem_cons_self d ds⟩
  have hdt : d ∈ t := (List.dropWhile_sublist isAlphaCh).mem hd
  rw [List.all_eq_true] at hall
  have := hall d hd
  rw [(hcl d hdt).1] at this
  exact absurd this (by simp)

/-- Helper: unfolded form of `_looks_like_acronym` on a clean nonempty token. -/
theorem looks_eq (t : List Char) (A : List (List Char)) (hne : t ≠ []) (ht : TokOk t) :
    looks_like_acronym t A =
      (A.contains (pyUpper t) || reLettersDigits t || reAllCaps t ||
        (t.any (fun c => c = '&' || c = '.') && t.any isAlphaCh)) := by
  rw [looks_like_acronym, if_neg hne]
  simp only [pyStrip_tokOk t ht]

theorem pyUpper_ne_nil (t : List Char) (h : t ≠ []) : pyUpper t ≠ [] := by
  cases t with
  | nil => exact absurd rfl h
  | cons c cs => simp [pyUpper]

/-- If a clean token looks like an acronym, so does its upper-casing. -/
theorem looks_pyUpper (t : List Char) (A : List (List Char)) (hne : t ≠ [])
    (ht : TokOk t) (hcl : CleanTok t) (h : looks_like_acronym t A = true) :
    looks_like_acronym (pyUpper t) A = true := by
  rw [looks_eq t A hne ht] at h
  rw [looks_eq (pyUpper t) A (pyUpper_ne_nil t hne) (tokOk_pyUpper t ht)]
  simp only [Bool.or_eq_true] at h
  rcases h with ((hc | hld) | hac) | hamp
  · rw [pyUpper_pyUpper]
    simp only [Bool.or_eq_true]
    exact Or.inl (Or.inl (Or.inl hc))
  · rw [reLettersDigits_false_of_clean t hcl] at hld
    exact absurd hld (by simp)
  · have heq : pyUpper t = t := pyUpper_of_allUpper t (by
      rw [reAllCaps] at hac
      simp only [Bool.and_eq_true] at hac
      exact hac.2)
    rw [heq]
    simp only [Bool.or_eq_true]
    exact Or.inl (Or.inr hac)
  · simp only [Bool.and_eq_true] at hamp
    have h1 : (pyUpper t).any (fun c => c = '&' || c = '.') = true := by
      rw [pyUpper, List.any_map, List.any_eq_true]
      obtain ⟨c, hcm, hc⟩ := List.any_eq_true.mp hamp.1
      refine ⟨c, hcm, ?_⟩
      simp only [Function.comp_apply, Bool.or_eq_true, decide_eq_true_eq] at hc ⊢
      rcases hc with hc | hc
      · exact Or.inl ((upChar_eq_fixed_iff c '&' (by decide)).mpr hc)
      · exact Or.inr ((upChar_eq_fixed_iff c '.' (by decide)).mpr hc)
    have h2 : (pyUpper t).any isAlphaCh = true := by
      rw [pyUpper, List.any_map, List.any_eq_true]
      obtain ⟨c, hcm, hc⟩ := List.any_eq_true.mp hamp.2
      exact ⟨c, hcm, by simpa [Function.comp, isAlpha_upChar] using hc⟩
    simp [h1, h2]

theorem tokOk_cap (c : Char) (cs : List Char) (ht : TokOk (c :: cs)) :
    TokOk (upChar c :: pyLower cs) := by
  intro x hx
  rcases List.mem_cons.mp hx with rfl | hx
  · have := ht c (by simp)
    rw [isWs_upChar, isSep_upChar]
    exact this
  · rw [pyLower, List.mem_map] at hx
    obtain ⟨d, hd, rfl⟩ := hx
    have := ht d (by simp [hd])
    rw [isWs_downChar, isSep_downChar]
    exact this

theorem cleanTok_cap (c : Char) (cs : List Char) (hcl : CleanTok (c :: cs)) :
    CleanTok (upChar c :: pyLower cs) := by
  intro x hx
  rcases List.mem_cons.mp hx with rfl | hx
  · have := hcl c (by simp)
    rw [isDigit_upChar]
    exact ⟨this.1, fun h => this.2 ((upChar_eq_fixed_iff c '₂' (by decide)).mp h)⟩
  · rw [pyLower, List.mem_map] at hx
    obtain ⟨d, hd, rfl⟩ := hx
    have := hcl d (by simp [hd])
    rw [isDigit_downChar]
    exact ⟨this.1, fun h => this.2 ((downChar_eq_fixed_iff d '₂' (by decide)).mp h)⟩

theorem anyCongr (l : List Char) (p q : Char → Bool) (h : ∀ c ∈ l, p c = q c) :
    l.any p = l.any q := by
  induction l with
  | nil => rfl
  | cons c cs ih =>
    simp only [List.any_cons]
    rw [h c (by simp), ih (fun d hd => h d (by simp [hd]))]

/-- If a clean token does not look like an acronym, neither does its
first-upper-rest-lower form. -/
theorem looks_cap_false (c : Char) (cs : List Char) (A : List (List Char))
    (ht : TokOk (c :: cs)) (hcl : CleanTok (c :: cs))
    (h : looks_like_acronym (c :: cs) A = false) :
    looks_like_acronym (upChar c :: pyLower cs) A = false := by
  rw [looks_eq (c :: cs) A (by simp) ht] at h
  rw [looks_eq (upChar c :: pyLower cs) A (by simp) (tokOk_cap c cs ht)]
  simp only [Bool.or_eq_false_iff] at h
  obtain ⟨⟨⟨hc, _⟩, hac⟩, hamp⟩ := h
  have g1 : A.contains (pyUpper (upChar c :: pyLower cs)) = false := by
    rw [pyUpper_cap]
    exact hc
  have g2 : reLettersDigits (upChar c :: pyLower cs) = false :=
    reLettersDigits_false_of_clean _ (cleanTok_cap c cs hcl)
  have g3 : reAllCaps (upChar c :: pyLower cs) = false := by
    cases cs with
    | nil => rw [reAllCaps]; simp [pyLower]
    | cons d cs' =>
      rw [reAllCaps, Bool.eq_false_iff]
      intro hx
      rw [Bool.and_eq_true, List.all_eq_true] at hx
      have := hx.2 (downChar d) (by simp [pyLower])
      rw [isUpper_downChar d] at this
      exact absurd this (by simp)
  have g4 : ((upChar c :: pyLower cs).any (fun x => x = '&' || x = '.') &&
      (upChar c :: pyLower cs).any isAlphaCh) = false := by
    have e1 : (upChar c :: pyLower cs).any (fun x => x = '&' || x = '.') =
        (c :: cs).any (fun x => x = '&' || x = '.') := by
      simp only [List.any_cons, pyLower, List.any_map]
      have hc1 : (decide (upChar c = '&') || decide (upChar c = '.')) =
          (decide (c = '&') || decide (c = '.')) := by
        rw [Bool.eq_iff_iff]
        simp only [Bool.or_eq_true, decide_eq_true_eq]
        rw [upChar_eq_fixed_iff c '&' (by decide), upChar_eq_fixed_iff c '.' (by decide)]
      have hc2 : ∀ d ∈ cs, ((fun x => decide (x = '&') || decide (x = '.')) ∘ downChar) d =
          (decide (d = '&') || decide (d = '.')) := by
        intro d _
        simp only [Function.comp_apply]
        rw [Bool.eq_iff_iff]
        simp only [Bool.or_eq_true, decide_eq_true_eq]
        rw [downChar_eq_fixed_iff d '&' (by decide), downChar_eq_fixed_iff d '.' (by decide)]
      rw [hc1, anyCongr cs _ _ hc2]
    have e2 : (upChar c :: pyLower cs).any isAlphaCh = (c :: cs).any isAlphaCh := by
      simp only [List.any_cons, pyLower, List.any_map]
      have hc2 : ∀ d ∈ cs, (isAlphaCh ∘ downChar) d = isAlphaCh d := by
        intro d _
        simp only [Function.comp_apply]
        rw [isAlpha_downChar]
      rw [isAlpha_upChar, anyCongr cs _ _ hc2]
    rw [e1, e2]
    exact hamp
  rw [g1, g2, g3, g4]
  rfl

/-- `_smart_title_token` is idempotent on clean tokens. -/
theorem smart_idem_tok (t : List Char) (A : List (List Char)) (ht : TokOk t)
    (hcl : CleanTok t) :
    smart_title_token (smart_title_token t A) A = smart_title_token t A := by
  by_cases hne : t = []
  · subst hne
    rw [smart_nil, smart_nil]
  · rcases smart_tok_cases_clean t A hne ht hcl with h | ⟨hl, h⟩ | ⟨c, cs, rfl, hf, h⟩
    · rw [h]
      exact h
    · rw [h]
      have hu : TokOk (pyUpper t) := tokOk_pyUpper t ht
      have hucl : CleanTok (pyUpper t) := cleanTok_pyUpper t hcl
      have hlu : looks_like_acronym (pyUpper t) A = true :=
        looks_pyUpper t A hne ht hcl hl
      rcases smart_tok_cases_clean (pyUpper t) A (pyUpper_ne_nil t hne) hu hucl with
        h' | ⟨_, h'⟩ | ⟨c, cs, hcc, hf', _⟩
      · exact h'
      · rw [h', pyUpper_pyUpper]
      · rw [hlu] at hf'
        exact absurd hf' (by simp)
    · rw [h]
      have hu : TokOk (upChar c :: pyLower cs) := tokOk_cap c cs ht
      have hucl : CleanTok (upChar c :: pyLower cs) := cleanTok_cap c cs hcl
      have hfu : looks_like_acronym (upChar c :: pyLower cs) A = false :=
        looks_cap_false c cs A ht hcl hf
      rcases smart_tok_cases_clean (upChar c :: pyLower cs) A (by simp) hu hucl with
        h' | ⟨hl', _⟩ | ⟨c', cs', hcc, _, h'⟩
      · exact h'
      · rw [hfu] at hl'
        exact absurd hl' (by simp)
      · have hc' : c' = upChar c := (List.cons_eq_cons.mp hcc).1.symm
        have hcs' : cs' = pyLower cs := (List.cons_eq_cons.mp hcc).2.symm
        rw [h', hc', hcs', upChar_upChar, pyLower_pyLower]

/-! ## Whitespace-normal strings -/

/-- Every whitespace character is a single space followed by a non-whitespace
character. -/
def wsnAux : List Char → Bool
  | [] => true
  | c :: cs =>
    (if isWsCh c then decide (c = ' ') && !cs.isEmpty && !headWs cs else true) && wsnAux cs

/-- Whitespace-normal: no leading whitespace, and every whitespace run is one
single space followed by more text.  `normalize_text` produces exactly such
strings and fixes them. -/
def wsnorm (l : List Char) : Bool := !headWs l && wsnAux l

theorem wsnAux_cons_eq (c : Char) (cs : List Char) :
    wsnAux (c :: cs) =
      ((if isWsCh c then decide (c = ' ') && !cs.isEmpty && !headWs cs else true) &&
        wsnAux cs) := rfl

theorem wsnAux_tail (c : Char) (cs : List Char) (h : wsnAux (c :: cs) = true) :
    wsnAux cs = true := by
  rw [wsnAux_cons_eq, Bool.and_eq_true] at h
  exact h.2

theorem wsnorm_of (l : List Char) (h1 : headWs l = false) (h2 : wsnAux l = true) :
    wsnorm l = true := by
  rw [wsnorm, h1, h2]
  rfl

theorem wsnorm_headWs (l : List Char) (h : wsnorm l = true) : headWs l = false := by
  rw [wsnorm, Bool.and_eq_true] at h
  simpa using h.1

theorem wsnorm_wsnAux (l : List Char) (h : wsnorm l = true) : wsnAux l = true := by
  rw [wsnorm, Bool.and_eq_true] at h
  exact h.2

/-- Equation lemmas for `words`. -/
theorem words_ws (c : Char) (cs : List Char) (h : isWsCh c = true) :
    words (c :: cs) = words cs := by
  rw [words, if_pos h]

theorem words_break (c : Char) (cs : List Char) (hc : isWsCh c = false)
    (hcs : headWs cs = true) : words (c :: cs) = [c] :: words cs := by
  rw [words, if_neg (by simp [hc]), if_pos hcs]

theorem words_glue (c : Char) (cs : List Char) (hc : isWsCh c = false)
    (hcs : headWs cs = false) (w : List Char) (ws1 : List (List Char))
    (heq : words cs = w :: ws1) : words (c :: cs) = (c :: w) :: ws1 := by
  rw [words, if_neg (by simp [hc]), if_neg (by simp [hcs]), heq]

theorem words_lone (c : Char) (cs : List Char) (hc : isWsCh c = false)
    (hcs : headWs cs = false) (heq : words cs = []) : words (c :: cs) = [[c]] := by
  rw [words, if_neg (by simp [hc]), if_neg (by simp [hcs]), heq]

theorem words_ne_nil (l : List Char) (hne : l ≠ []) (h : headWs l = false) :
    words l ≠ [] := by
  cases l with
  | nil => exact absurd rfl hne
  | cons c cs =>
    have hc : isWsCh c = false := h
    by_cases hcs : headWs cs = true
    · rw [words_break c cs hc hcs]; simp
    · cases hw : words cs with
      | nil => rw [words_lone c cs hc (by simpa using hcs) hw]; simp
      | cons w ws1 => rw [words_glue c cs hc (by simpa using hcs) w ws1 hw]; simp

/-- Words are nonempty, whitespace-free, and made of input characters. -/
theorem words_props (l : List Char) :
    ∀ w ∈ words l, w ≠ [] ∧ ∀ c ∈ w, isWsCh c = false ∧ c ∈ l := by
  induction l with
  | nil => simp [words]
  | cons c cs ih =>
    by_cases hc : isWsCh c = true
    · rw [words_ws c cs hc]
      intro w hw
      exact ⟨(ih w hw).1, fun x hx =>
        ⟨((ih w hw).2 x hx).1, by simp [((ih w hw).2 x hx).2]⟩⟩
    · have hc' : isWsCh c = false := by simpa using hc
      by_cases hcs : headWs cs = true
      · rw [words_break c cs hc' hcs]
        intro w hw
        rcases List.mem_cons.mp hw with rfl | hw
        · refine ⟨by simp, fun x hx => ?_⟩
          simp only [List.mem_singleton] at hx
          subst hx
          exact ⟨hc', by simp⟩
        · exact ⟨(ih w hw).1, fun x hx =>
            ⟨((ih w hw).2 x hx).1, by simp [((ih w hw).2 x hx).2]⟩⟩
      · cases hw0 : words cs with
        | nil =>
          rw [words_lone c cs hc' (by simpa using hcs) hw0]
          intro w hw
          simp only [List.mem_singleton] at hw
          subst hw
          refine ⟨by simp, fun x hx => ?_⟩
          simp only [List.mem_singleton] at hx
          subst hx
          exact ⟨hc', by simp⟩
        | cons w0 ws1 =>
          rw [words_glue c cs hc' (by simpa using hcs) w0 ws1 hw0]
          intro w hw
          rcases List.mem_cons.mp hw with rfl | hw
          · refine ⟨by simp, fun x hx => ?_⟩
            rcases List.mem_cons.mp hx with rfl | hx
            · exact ⟨hc', by simp⟩
            · have := (ih w0 (by rw [hw0]; simp)).2 x hx
              exact ⟨this.1, by simp [this.2]⟩
          · have := ih w (by rw [hw0]; simp [hw])
            exact ⟨this.1, fun x hx => ⟨(this.2 x hx).1, by simp [(this.2 x hx).2]⟩⟩

theorem headWs_append_left (x r : List Char) (h : x ≠ []) :
    headWs (x ++ r) = headWs x := by
  cases x with
  | nil => exact absurd rfl h
  | cons c cs => rfl

theorem joinSpace_cons_ne_nil (x : List Char) (ws1 : List (List Char)) (h : x ≠ []) :
    joinSpace (x :: ws1) ≠ [] := by
  cases ws1 with
  | nil => simpa [joinSpace] using h
  | cons y ws2 =>
    rw [joinSpace]
    simp [h]

theorem headWs_joinSpace_cons (x : List Char) (ws1 : List (List Char)) (h : x ≠ []) :
    headWs (joinSpace (x :: ws1)) = headWs x := by
  cases ws1 with
  | nil => rfl
  | cons y ws2 =>
    rw [joinSpace, headWs_append_left x _ h]

theorem wsnAux_noWs (w : List Char) (h : ∀ c ∈ w, isWsCh c = false) :
    wsnAux w = true := by
  induction w with
  | nil => rfl
  | cons c cs ih =>
    rw [wsnAux_cons_eq, Bool.and_eq_true]
    refine ⟨?_, ih (fun d hd => h d (by simp [hd]))⟩
    rw [h c (by simp)]
    rfl

theorem wsnAux_append_noWs (w r : List Char) (h : ∀ c ∈ w, isWsCh c = false) :
    wsnAux (w ++ r) = wsnAux r := by
  induction w with
  | nil => rfl
  | cons c cs ih =>
    rw [List.cons_append, wsnAux_cons_eq, h c (by simp)]
    simp only [if_neg, Bool.false_eq_true, Bool.true_and]
    exact ih (fun d hd => h d (by simp [hd]))

/-- The space-joined list of nonempty whitespace-free words is
whitespace-normal. -/
theorem wsnorm_joinSpace (ws1 : List (List Char))
    (h : ∀ w ∈ ws1, w ≠ [] ∧ ∀ c ∈ w, isWsCh c = false) :
    wsnorm (joinSpace ws1) = true := by
  induction ws1 with
  | nil => rfl
  | cons w ws2 ih =>
    have hw := h w (by simp)
    have hwhead : headWs w = false := by
      cases w with
      | nil => exact absurd rfl hw.1
      | cons c cs => exact hw.2 c (by simp)
    cases ws2 with
    | nil =>
      apply wsnorm_of
      · rw [show joinSpace [w] = w from rfl, hwhead]
      · exact wsnAux_noWs w hw.2
    | cons x ws3 =>
      have hx := h x (by simp)
      have ihx := ih (fun y hy => h y (by simp [hy]))
      have h2 : (joinSpace (x :: ws3)).isEmpty = false := by
        cases hj : joinSpace (x :: ws3) with
        | nil => exact absurd hj (joinSpace_cons_ne_nil x ws3 hx.1)
        | cons a as => rfl
      have h3 : headWs (joinSpace (x :: ws3)) = false := by
        rw [headWs_joinSpace_cons x ws3 hx.1]
        cases x with
        | nil => exact absurd rfl hx.1
        | cons c cs => exact hx.2 c (by simp)
      apply wsnorm_of
      · rw [joinSpace, headWs_append_left w _ hw.1, hwhead]
      · rw [joinSpace, wsnAux_append_noWs w _ hw.2, wsnAux_cons_eq]
        rw [if_pos (by decide : isWsCh ' ' = true)]
        simp only [h2, h3, Bool.and_eq_true]
        exact ⟨⟨by decide, by simp⟩, wsnorm_wsnAux _ ihx⟩

theorem wsnAux_last_not_ws (l : List Char) (h : wsnAux l = true) :
    headWs l.reverse = false := by
  induction l with
  | nil => rfl
  | cons c cs ih =>
    cases hcs : cs with
    | nil =>
      rw [wsnAux_cons_eq] at h
      by_cases hc : isWsCh c = true
      · rw [if_pos hc, hcs] at h
        simp at h
      · simp only [List.reverse_cons, hcs, List.reverse_nil, List.nil_append]
        simpa [headWs] using hc
    | cons d ds =>
      have htail : wsnAux cs = true := wsnAux_tail c cs h
      rw [← hcs]
      have hrev : cs.reverse ≠ [] := by
        rw [hcs]
        simp
      rw [List.reverse_cons, headWs_append_left _ _ hrev]
      exact ih htail

theorem pyStrip_wsnorm (l : List Char) (h : wsnorm l = true) : pyStrip l = l := by
  have h1 : l.dropWhile isWsCh = l := dropWhile_ws_eq_self l (wsnorm_headWs l h)
  have h2 : l.reverse.dropWhile isWsCh = l.reverse :=
    dropWhile_ws_eq_self l.reverse (wsnAux_last_not_ws l (wsnorm_wsnAux l h))
  rw [pyStrip, h1, h2, List.reverse_reverse]

theorem normalize_text_eq_joinSpace (l : List Char) :
    normalize_text l = joinSpace (words l) := by
  rw [normalize_text]
  apply pyStrip_wsnorm
  apply wsnorm_joinSpace
  intro w hw
  exact ⟨(words_props l w hw).1, fun c hc => ((words_props l w hw).2 c hc).1⟩

theorem wsnorm_normalize_text (l : List Char) : wsnorm (normalize_text l) = true := by
  rw [normalize_text_eq_joinSpace]
  apply wsnorm_joinSpace
  intro w hw
  exact ⟨(words_props l w hw).1, fun c hc => ((words_props l w hw).2 c hc).1⟩

theorem joinSpace_cons_head (c : Char) (w : List Char) (ws1 : List (List Char)) :
    joinSpace ((c :: w) :: ws1) = c :: joinSpace (w :: ws1) := by
  cases ws1 with
  | nil => rfl
  | cons x ws2 => rw [joinSpace, joinSpace, List.cons_append]

/-- On whitespace-normal strings, word-splitting and space-joining are mutually
inverse. -/
theorem joinSpace_words_bounded (n : Nat) :
    ∀ l : List Char, l.length ≤ n → wsnorm l = true → joinSpace (words l) = l := by
  induction n with
  | zero =>
    intro l hl _
    have : l = [] := List.length_eq_zero.mp (Nat.le_antisymm hl (Nat.zero_le _))
    subst this
    rfl
  | succ n ih =>
    intro l hl h
    cases l with
    | nil => rfl
    | cons c cs =>
      have hc : isWsCh c = false := wsnorm_headWs _ h
      have haux := wsnorm_wsnAux _ h
      have hauxcs : wsnAux cs = true := wsnAux_tail c cs haux
      by_cases hcs : headWs cs = true
      · obtain ⟨d, cs', rfl⟩ : ∃ d cs', cs = d :: cs' := by
          cases cs with
          | nil => simp [headWs] at hcs
          | cons d cs' => exact ⟨d, cs', rfl⟩
        have hd : isWsCh d = true := hcs
        rw [wsnAux_cons_eq, Bool.and_eq_true] at hauxcs
        rw [if_pos hd] at hauxcs
        simp only [Bool.and_eq_true, decide_eq_true_eq] at hauxcs
        obtain ⟨⟨⟨hdsp, hne'⟩, hhead'⟩, haux'⟩ := hauxcs
        have hcs'ne : cs' ≠ [] := by
          intro hx
          rw [hx] at hne'
          simp at hne'
        have hhead'' : headWs cs' = false := by
          simpa using hhead'
        have hwn' : wsnorm cs' = true := wsnorm_of cs' hhead'' haux'
        have hlen : cs'.length ≤ n := by
          simp only [List.length_cons] at hl
          omega
        have hrec := ih cs' hlen hwn'
        rw [words_break c (d :: cs') hc (by simp [headWs, hd]), words_ws d cs' hd]
        obtain ⟨w0, ws1, hw0⟩ : ∃ w0 ws1, words cs' = w0 :: ws1 := by
          cases hx : words cs' with
          | nil => exact absurd hx (words_ne_nil cs' hcs'ne hhead'')
          | cons w0 ws1 => exact ⟨w0, ws1, rfl⟩
        rw [hw0]
        rw [joinSpace]
        rw [hw0] at hrec
        rw [hrec]
        rw [List.singleton_append, hdsp]
      · have hcs' : headWs cs = false := by simpa using hcs
        have hwn : wsnorm cs = true := wsnorm_of cs hcs' hauxcs
        have hlen : cs.length ≤ n := by
          simp only [List.length_cons] at hl
          omega
        have hrec := ih cs hlen hwn
        cases hw0 : words cs with
        | nil =>
          rw [words_lone c cs hc hcs' hw0]
          rw [hw0] at hrec
          have : cs = [] := by
            simpa [joinSpace] using hrec.symm
          rw [this]
          rfl
        | cons w0 ws1 =>
          rw [words_glue c cs hc hcs' w0 ws1 hw0, joinSpace_cons_head]
          rw [hw0] at hrec
          rw [hrec]

theorem normalize_text_of_wsnorm (l : List Char) (h : wsnorm l = true) :
    normalize_text l = l := by
  rw [normalize_text_eq_joinSpace]
  exact joinSpace_words_bounded l.length l (Nat.le_refl _) h

/-! ## Whitespace alignment: `smart_title_token` only rewrites inside tokens -/

/-- Two strings with the same whitespace skeleton: whitespace characters agree
position by position, non-whitespace characters pair up. -/
inductive WsAligned : List Char → List Char → Prop
  | nil : WsAligned [] []
  | ws (c : Char) (l1 l2 : List Char) (h : isWsCh c = true) (ha : WsAligned l1 l2) :
      WsAligned (c :: l1) (c :: l2)
  | tok (c d : Char) (l1 l2 : List Char) (h1 : isWsCh c = false) (h2 : isWsCh d = false)
      (ha : WsAligned l1 l2) : WsAligned (c :: l1) (d :: l2)

theorem wsAligned_self (s : List Char) : WsAligned s s := by
  induction s with
  | nil => exact WsAligned.nil
  | cons c cs ih =>
    by_cases h : isWsCh c = true
    · exact WsAligned.ws c cs cs h ih
    · exact WsAligned.tok c c cs cs (by simpa using h) (by simpa using h) ih

theorem wsAligned_append (a b c d : List Char) (h1 : WsAligned a b) (h2 : WsAligned c d) :
    WsAligned (a ++ c) (b ++ d) := by
  induction h1 with
  | nil => exact h2
  | ws x l1 l2 hx ha ih => exact WsAligned.ws x _ _ hx ih
  | tok x y l1 l2 hx hy ha ih => exact WsAligned.tok x y _ _ hx hy ih

theorem wsAligned_of_tokOk (t1 t2 : List Char) (h1 : TokOk t1) (h2 : TokOk t2)
    (hlen : t1.length = t2.length) : WsAligned t1 t2 := by
  induction t1 generalizing t2 with
  | nil =>
    cases t2 with
    | nil => exact WsAligned.nil
    | cons d ds => simp at hlen
  | cons c cs ih =>
    cases t2 with
    | nil => simp at hlen
    | cons d ds =>
      refine WsAligned.tok c d cs ds (h1 c (by simp)).1 (h2 d (by simp)).1 ?_
      exact ih ds (fun x hx => h1 x (by simp [hx])) (fun x hx => h2 x (by simp [hx]))
        (by simpa using hlen)

theorem wsAligned_headWs (l1 l2 : List Char) (h : WsAligned l1 l2) :
    headWs l1 = headWs l2 := by
  cases h with
  | nil => rfl
  | ws c _ _ hc _ => rfl
  | tok c d _ _ hc hd _ => simp [headWs, hc, hd]

theorem wsAligned_isEmpty (l1 l2 : List Char) (h : WsAligned l1 l2) :
    l1.isEmpty = l2.isEmpty := by
  cases h with
  | nil => rfl
  | ws c _ _ hc _ => rfl
  | tok c d _ _ hc hd _ => rfl

theorem wsAligned_length (l1 l2 : List Char) (h : WsAligned l1 l2) :
    l1.length = l2.length := by
  induction h with
  | nil => rfl
  | ws c _ _ hc _ ih => simpa using ih
  | tok c d _ _ hc hd _ ih => simpa using ih

theorem wsAligned_wsnAux (l1 l2 : List Char) (h : WsAligned l1 l2) :
    wsnAux l1 = wsnAux l2 := by
  induction h with
  | nil => rfl
  | ws c t1 t2 hc ha ih =>
    rw [wsnAux_cons_eq, wsnAux_cons_eq, if_pos hc, if_pos hc, ih,
      wsAligned_isEmpty t1 t2 ha, wsAligned_headWs t1 t2 ha]
  | tok c d t1 t2 hc hd ha ih =>
    rw [wsnAux_cons_eq, wsnAux_cons_eq, if_neg (by simp [hc]), if_neg (by simp [hd]), ih]

theorem wsAligned_wsnorm (l1 l2 : List Char) (h : WsAligned l1 l2) :
    wsnorm l1 = wsnorm l2 := by
  rw [wsnorm, wsnorm, wsAligned_wsnAux l1 l2 h, wsAligned_headWs l1 l2 h]

/-- Mapping `smart_title_token` over well-formed pieces keeps the whitespace
skeleton of the joined string. -/
theorem wsAligned_smart (ps : List (List Char)) (A : List (List Char)) (h : Alt ps) :
    WsAligned (joinAll ps) (joinAll (ps.map (fun p => smart_title_token p A))) := by
  induction h with
  | single t ht =>
    simp only [List.map_cons, List.map_nil, joinAll]
    exact wsAligned_append t (smart_title_token t A) [] [] (wsAligned_of_tokOk t _ ht
      (smart_tokOk t A ht) (smart_length t A ht).symm) WsAligned.nil
  | cons t s rest ht hsp hmax hrest ih =>
    simp only [List.map_cons, joinAll]
    refine wsAligned_append t _ _ _ (wsAligned_of_tokOk t _ ht
      (smart_tokOk t A ht) (smart_length t A ht).symm) ?_
    rw [smart_sepPiece s hsp A]
    exact wsAligned_append s s _ _ (wsAligned_self s) ih

/-! ## Character content of the pieces -/

theorem mem_of_mem_joinAll (c : Char) (ps : List (List Char)) (h : c ∈ joinAll ps) :
    ∃ p ∈ ps, c ∈ p := by
  induction ps with
  | nil => simp [joinAll] at h
  | cons p ps ih =>
    rw [joinAll, List.mem_append] at h
    rcases h with h | h
    · exact ⟨p, by simp, h⟩
    · obtain ⟨q, hq, hc⟩ := ih h
      exact ⟨q, by simp [hq], hc⟩

theorem mem_joinSpace (c : Char) (ws1 : List (List Char)) (h : c ∈ joinSpace ws1) :
    c = ' ' ∨ ∃ w ∈ ws1, c ∈ w := by
  induction ws1 with
  | nil => simp [joinSpace] at h
  | cons w ws2 ih =>
    cases ws2 with
    | nil =>
      right
      exact ⟨w, by simp, h⟩
    | cons x ws3 =>
      rw [joinSpace, List.mem_append] at h
      rcases h with h | h
      · right; exact ⟨w, by simp, h⟩
      · rcases List.mem_cons.mp h with rfl | h
        · exact Or.inl rfl
        · rcases ih h with h | ⟨y, hy, hc⟩
          · exact Or.inl h
          · exact Or.inr ⟨y, by simp [hy], hc⟩

theorem mem_normalize_text (c : Char) (l : List Char) (h : c ∈ normalize_text l) :
    c = ' ' ∨ c ∈ l := by
  rw [normalize_text_eq_joinSpace] at h
  rcases mem_joinSpace c (words l) h with h | ⟨w, hw, hc⟩
  · exact Or.inl h
  · exact Or.inr ((words_props l w hw).2 c hc).2

/-! ## Assembly of the idempotence result -/

theorem mem_joinAll_of (c : Char) (p : List Char) (ps : List (List Char))
    (hp : p ∈ ps) (hc : c ∈ p) : c ∈ joinAll ps := by
  induction ps with
  | nil => simp at hp
  | cons q ps ih =>
    rw [joinAll, List.mem_append]
    rcases List.mem_cons.mp hp with rfl | hp
    · exact Or.inl hc
    · exact Or.inr (ih hp)

theorem tokenize_pieces_clean (l : List Char)
    (h : ∀ c ∈ l, isDigitCh c = false ∧ c ≠ '₂') :
    ∀ piece ∈ tokenize l, CleanTok piece := by
  intro piece hp c hc
  have : c ∈ joinAll (tokenize l) := mem_joinAll_of c piece (tokenize l) hp hc
  rw [joinAll_tokenize] at this
  exact h c this

theorem clean_map_smart (ps : List (List Char)) (A : List (List Char)) (h : Alt ps)
    (hcl : ∀ p ∈ ps, CleanTok p) :
    ∀ q ∈ ps.map (fun p => smart_title_token p A), CleanTok q := by
  induction h with
  | single t ht =>
    intro q hq
    simp only [List.map_cons, List.map_nil, List.mem_singleton] at hq
    subst hq
    exact smart_clean t A ht (hcl t (by simp))
  | cons t s rest ht hsp hmax hrest ih =>
    intro q hq
    simp only [List.map_cons, List.mem_cons] at hq
    rcases hq with rfl | rfl | hq
    · exact smart_clean t A ht (hcl t (by simp))
    · rw [smart_sepPiece s hsp A]
      exact hcl s (by simp)
    · exact ih (fun p hp => hcl p (by simp [hp])) q (by simpa using hq)

theorem Alt_map_smart (ps : List (List Char)) (A : List (List Char)) (h : Alt ps) :
    Alt (ps.map (fun p => smart_title_token p A)) := by
  induction h with
  | single t ht =>
    simp only [List.map_cons, List.map_nil]
    exact Alt.single _ (smart_tokOk t A ht)
  | cons t s rest ht hsp hmax hrest ih =>
    simp only [List.map_cons]
    rw [smart_sepPiece s hsp A]
    refine Alt.cons _ s _ (smart_tokOk t A ht) hsp ?_ ih
    intro hws
    rw [← wsAligned_headWs _ _ (wsAligned_smart rest A hrest)]
    exact hmax hws

theorem map_smart_idem (ps : List (List Char)) (A : List (List Char)) (h : Alt ps)
    (hcl : ∀ p ∈ ps, CleanTok p) :
    (ps.map (fun p => smart_title_token p A)).map (fun p => smart_title_token p A) =
      ps.map (fun p => smart_title_token p A) := by
  induction h with
  | single t ht =>
    simp only [List.map_cons, List.map_nil]
    rw [smart_idem_tok t A ht (hcl t (by simp))]
  | cons t s rest ht hsp hmax hrest ih =>
    have h1 := smart_idem_tok t A ht (hcl t (by simp))
    have h2 := smart_sepPiece s hsp A
    have h3 := ih (fun p hp => hcl p (by simp [hp]))
    simp only [List.map_cons, h2, h1, h3]

theorem prefix_mem (x : Char) (pat m : List Char) (hx : x ∈ pat)
    (h : pat.isPrefixOf m = true) : x ∈ m := by
  rw [List.isPrefixOf_iff_prefix] at h
  exact h.sublist.mem hx

theorem replaceAllF_id (fuel : Nat) (pat rep l : List Char) (x : Char) (hx : x ∈ pat)
    (hl : x ∉ l) : replaceAllF fuel pat rep l = l := by
  induction fuel generalizing l with
  | zero => rfl
  | succ fuel ih =>
    cases l with
    | nil => rfl
    | cons c cs =>
      rw [replaceAllF, if_neg]
      · rw [ih cs (fun hc => hl (by simp [hc]))]
      · rintro ⟨_, hpre⟩
        exact hl (prefix_mem x pat (c :: cs) hx hpre)

theorem pyReplace_id (l pat rep : List Char) (x : Char) (hx : x ∈ pat) (hl : x ∉ l) :
    pyReplace l pat rep = l :=
  replaceAllF_id l.length pat rep l x hx hl

/-- Claim C5, amended core lemma: on strings free of ASCII digits and of the
subscript two, `normalize_phrase` is idempotent. -/
theorem normalize_phrase_idem_clean (p : List Char) (A : List (List Char))
    (hcl : ∀ c ∈ p, isDigitCh c = false ∧ c ≠ '₂') :
    normalize_phrase (normalize_phrase p A) A = normalize_phrase p A := by
  by_cases h0 : normalize_text p = []
  · have hNp0 : normalize_phrase p A = [] := by
      rw [normalize_phrase, if_pos h0]
    rw [hNp0, normalize_phrase, if_pos (show normalize_text [] = [] from rfl)]
  · have hwn0 : wsnorm (normalize_text p) = true := wsnorm_normalize_text p
    have hAlt : Alt (tokenize (normalize_text p)) := Alt_tokenize (normalize_text p)
    have hclP : ∀ q ∈ tokenize (normalize_text p), CleanTok q := by
      apply tokenize_pieces_clean
      intro c hc
      rcases mem_normalize_text c p hc with rfl | hc
      · exact ⟨by decide, by decide⟩
      · exact hcl c hc
    have halign : WsAligned (normalize_text p)
        (joinAll ((tokenize (normalize_text p)).map (fun q => smart_title_token q A))) := by
      have := wsAligned_smart (tokenize (normalize_text p)) A hAlt
      rwa [joinAll_tokenize] at this
    have hXwn : wsnorm
        (joinAll ((tokenize (normalize_text p)).map (fun q => smart_title_token q A))) =
        true := by
      rw [← wsAligned_wsnorm _ _ halign]
      exact hwn0
    have hXnt : normalize_text
        (joinAll ((tokenize (normalize_text p)).map (fun q => smart_title_token q A))) =
        joinAll ((tokenize (normalize_text p)).map (fun q => smart_title_token q A)) :=
      normalize_text_of_wsnorm _ hXwn
    have hXclean : ∀ c ∈
        joinAll ((tokenize (normalize_text p)).map (fun q => smart_title_token q A)),
        isDigitCh c = false ∧ c ≠ '₂' := by
      intro c hc
      obtain ⟨q, hq, hcq⟩ := mem_of_mem_joinAll c _ hc
      exact clean_map_smart (tokenize (normalize_text p)) A hAlt hclP q hq c hcq
    have hX2 : '2' ∉
        joinAll ((tokenize (normalize_text p)).map (fun q => smart_title_token q A)) := by
      intro hc
      have := (hXclean '2' hc).1
      exact absurd this (by decide)
    have hXs2 : '₂' ∉
        joinAll ((tokenize (normalize_text p)).map (fun q => smart_title_token q A)) := by
      intro hc
      exact (hXclean '₂' hc).2 rfl
    have hNp : normalize_phrase p A =
        joinAll ((tokenize (normalize_text p)).map (fun q => smart_title_token q A)) := by
      rw [normalize_phrase, if_neg h0, hXnt,
        pyReplace_id _ _ _ '2' (by decide) hX2,
        pyReplace_id _ _ _ '₂' (by decide) hXs2]
    have hXne : joinAll ((tokenize (normalize_text p)).map (fun q => smart_title_token q A))
        ≠ [] := by
      intro hx
      apply h0
      have hlen := wsAligned_length _ _ halign
      rw [hx] at hlen
      simpa using List.length_eq_zero.mp hlen
    have htokX : tokenize
        (joinAll ((tokenize (normalize_text p)).map (fun q => smart_title_token q A))) =
        (tokenize (normalize_text p)).map (fun q => smart_title_token q A) :=
      tokenize_joinAll_of_Alt _ (Alt_map_smart _ A hAlt)
    rw [hNp, normalize_phrase, if_neg (by rw [hXnt]; exact hXne), hXnt, htokX,
      map_smart_idem _ A hAlt hclP, hXnt,
      pyReplace_id _ _ _ '2' (by decide) hX2,
      pyReplace_id _ _ _ '₂' (by decide) hXs2]

/-- Claim C5 (counterexample): idempotence of `normalize_phrase` fails as stated.
For the phrase `"2Co2"` and the acronym set `BASE_ACRONYMS`, one application
yields `"2CO2"` (the camel-case heuristic keeps `"2Co2"`, then the final literal
substitution folds `"Co2"` to `"CO2"`), but a second application yields
`"2co2"`: the token `"2CO2"` matches no acronym rule (it starts with a digit and
is not all-uppercase-letters) and has no lowercase letter, so it falls to the
standard-case branch, which lowercases everything after the first character. -/
theorem claim_C5_counterexample :
    normalize_phrase "2Co2".data BASE_ACRONYMS = "2CO2".data ∧
    normalize_phrase (normalize_phrase "2Co2".data BASE_ACRONYMS) BASE_ACRONYMS =
      "2co2".data ∧
    "2co2".data ≠ "2CO2".data := by
  refine ⟨by decide, by decide, by decide⟩

/-- Claim C5 (amended): `normalize_phrase` is idempotent on every phrase that
contains no ASCII digit and no subscript-two character `'₂'`, for every acronym
set.  (The counterexample `claim_C5_counterexample` shows that on phrases with a
digit or a subscript the code is not idempotent, so the universal claim is
amended by excluding exactly those characters.) -/
theorem claim_C5_idempotence_amended (p : List Char) (A : List (List Char))
    (h : p.all (fun c => !isDigitCh c && !decide (c = '₂')) = true) :
    normalize_phrase (normalize_phrase p A) A = normalize_phrase p A := by
  apply normalize_phrase_idem_clean
  intro c hc
  rw [List.all_eq_true] at h
  have := h c hc
  simp only [Bool.and_eq_true, Bool.not_eq_true'] at this
  refine ⟨this.1, ?_⟩
  simpa using this.2

/-- Witness for `claim_C5_idempotence_amended` at the concrete phrase
`"lng export terminal"` and the base acronym set. -/
theorem claim_C5_witness :
    ("lng export terminal".data.all (fun c => !isDigitCh c && !decide (c = '₂'))) = true ∧
    normalize_phrase (normalize_phrase "lng export terminal".data BASE_ACRONYMS)
      BASE_ACRONYMS = normalize_phrase "lng export terminal".data BASE_ACRONYMS :=
  ⟨by decide,
    claim_C5_idempotence_amended "lng export terminal".data BASE_ACRONYMS (by decide)⟩

/-- Claim C9: `normalize_phrase("co₂ capture", BASE_ACRONYMS)` returns exactly
`"CO2 Capture"`; the subscript token is recognized through the acronym branch
(`"co₂".upper() = "CO₂"` is in `BASE_ACRONYMS`) and rendered `"CO2"`, and
`"capture"` gets standard first-letter capitalization. -/
theorem claim_C9_subscript_co2 :
    normalize_phrase "co₂ capture".data BASE_ACRONYMS = "CO2 Capture".data ∧
    looks_like_acronym "co₂".data BASE_ACRONYMS = true ∧
    smart_title_token "co₂".data BASE_ACRONYMS = "CO2".data ∧
    smart_title_token "capture".data BASE_ACRONYMS = "Capture".data := by
  refine ⟨by decide, by decide, by decide, by decide⟩

/-! ## The merge-commit engine: stable sorting and url-dedupe -/

/-- A parsed dataset row as the merge scripts see it after `pd.to_datetime`
coercion: `url` is `none` for a missing url (absent column / NaN), `scraped` and
`pub` are `none` for `NaT`; `title` stands for the remaining payload columns. -/
structure Row where
  url : Option String
  scraped : Option Nat
  pub : Option Nat
  title : String
deriving DecidableEq

/-- Stable insertion: `a` goes in front of the first element it compares
less-or-equal to, so equal keys keep their original relative order. -/
def insertLe {α : Type} (le : α → α → Bool) (a : α) : List α → List α
  | [] => [a]
  | b :: bs => if le a b then a :: b :: bs else b :: insertLe le a bs

/-- Stable insertion sort (models pandas `sort_values(kind="mergesort")` /
`numpy.lexsort`, which are stable). -/
def isortLe {α : Type} (le : α → α → Bool) : List α → List α
  | [] => []
  | a :: as => insertLe le a (isortLe le as)

/-- Ascending `NaT`-last order on optional timestamps: `pandas` sorts `NaT` to
the end (`na_position='last'`, also the `numpy` sorting convention). -/
def optLe (a b : Option Nat) : Bool :=
  match a, b with
  | some x, some y => decide (x ≤ y)
  | some _, none => true
  | none, some _ => false
  | none, none => true

/-- Descending `NaT`-last order on optional timestamps. -/
def optDescLe (a b : Option Nat) : Bool :=
  match a, b with
  | some x, some y => decide (y ≤ x)
  | some _, none => true
  | none, some _ => false
  | none, none => true

/-- Sort key of the dedupe sort: `scraped_at` ascending, `NaT` last. -/
def scrapedLe (r s : Row) : Bool := optLe r.scraped s.scraped

/-- Sort key of the cosmetic presentation sort: `published_date` descending then
`scraped_at` descending, nulls last. -/
def finalLe (r s : Row) : Bool :=
  if r.pub = s.pub then optDescLe r.scraped s.scraped else optDescLe r.pub s.pub

/-- `drop_duplicates(subset=["url"], keep="last")`: keep the last occurrence of
every url (pandas treats NaN urls as equal to each other). -/
def dedupLast : List Row → List Row
  | [] => []
  | r :: rs =>
    if rs.any (fun s => decide (s.url = r.url)) then dedupLast rs
    else r :: dedupLast rs

/-- The later row wins on an equal-or-newer `scraped_at` (with absent treated as
newest); folding it over the concatenation order picks the surviving row. -/
def laterWins (a r : Row) : Row := if optLe a.scraped r.scraped then r else a

/-- The row that survives dedupe for url `u`: among the rows with that url, the
one with the latest `scraped_at`, where an absent `scraped_at` counts as later
than every timestamp and ties go to the row later in the list. -/
def winnerFor (rows : List Row) (u : String) : Option Row :=
  match rows.filter (fun r => decide (r.url = some u)) with
  | [] => none
  | x :: xs => some (xs.foldl laterWins x)

/-- The merge-dedupe pipeline of `scripts/update_csv.py::merge_dedupe` (the same
row survives in `scripts/merge_jpt_csv.py` and `scripts/merge_three_way.py`):
concatenate committed rows then batch rows, stable-sort by `scraped_at`
ascending with `NaT` last, drop duplicate urls keeping the last occurrence, then
apply the cosmetic presentation sort. -/
def mergeDedupeRows (oldRows newRows : List Row) : List Row :=
  isortLe finalLe (dedupLast (isortLe scrapedLe (oldRows ++ newRows)))

theorem optLe_total (a b : Option Nat) : optLe a b = true ∨ optLe b a = true := by
  cases a <;> cases b <;> simp [optLe] <;> omega

theorem optLe_trans (a b c : Option Nat) (h1 : optLe a b = true) (h2 : optLe b c = true) :
    optLe a c = true := by
  cases a <;> cases b <;> cases c <;> simp [optLe] at h1 h2 ⊢ <;> omega

theorem scrapedLe_total (a b : Row) : scrapedLe a b = true ∨ scrapedLe b a = true :=
  optLe_total a.scraped b.scraped

theorem scrapedLe_trans (a b c : Row) (h1 : scrapedLe a b = true)
    (h2 : scrapedLe b c = true) : scrapedLe a c = true :=
  optLe_trans a.scraped b.scraped c.scraped h1 h2

theorem insertLe_perm {α : Type} (le : α → α → Bool) (a : α) (l : List α) :
    List.Perm (insertLe le a l) (a :: l) := by
  induction l with
  | nil => exact List.Perm.refl _
  | cons b bs ih =>
    rw [insertLe]
    by_cases h : le a b = true
    · rw [if_pos h]
    · rw [if_neg h]
      exact ((ih.cons b).trans (List.Perm.swap a b bs))

theorem isortLe_perm {α : Type} (le : α → α → Bool) (l : List α) :
    List.Perm (isortLe le l) l := by
  induction l with
  | nil => exact List.Perm.refl _
  | cons a as ih =>
    rw [isortLe]
    exact (insertLe_perm le a (isortLe le as)).trans (ih.cons a)

/-- Pairwise sortedness with respect to a Boolean comparator. -/
def SortedLe {α : Type} (le : α → α → Bool) (l : List α) : Prop :=
  List.Pairwise (fun a b => le a b = true) l

theorem sorted_insertLe {α : Type} (le : α → α → Bool)
    (htot : ∀ a b, le a b = true ∨ le b a = true)
    (htrans : ∀ a b c, le a b = true → le b c = true → le a c = true)
    (a : α) (l : List α) (h : SortedLe le l) : SortedLe le (insertLe le a l) := by
  induction l with
  | nil => simp [insertLe, SortedLe]
  | cons b bs ih =>
    rw [insertLe]
    rcases List.pairwise_cons.mp h with ⟨hb, hbs⟩
    by_cases hab : le a b = true
    · rw [if_pos hab]
      refine List.pairwise_cons.mpr ⟨?_, h⟩
      intro x hx
      rcases List.mem_cons.mp hx with rfl | hx
      · exact hab
      · exact htrans a b x hab (hb x hx)
    · rw [if_neg hab]
      refine List.pairwise_cons.mpr ⟨?_, ih hbs⟩
      intro x hx
      have hperm := insertLe_perm le a bs
      have hx' : x ∈ a :: bs := hperm.mem_iff.mp hx
      rcases List.mem_cons.mp hx' with rfl | hx'
      · rcases htot x b with hxb | hbx
        · exact absurd hxb hab
        · exact hbx
      · exact hb x hx'

theorem sorted_isortLe {α : Type} (le : α → α → Bool)
    (htot : ∀ a b, le a b = true ∨ le b a = true)
    (htrans : ∀ a b c, le a b = true → le b c = true → le a c = true)
    (l : List α) : SortedLe le (isortLe le l) := by
  induction l with
  | nil => simp [isortLe, SortedLe]
  | cons a as ih => exact sorted_insertLe le htot htrans a (isortLe le as) ih

/-- Stability in filter form: filtering commutes with the stable sort. -/
theorem filter_insertLe {α : Type} (le : α → α → Bool)
    (htot : ∀ a b, le a b = true ∨ le b a = true)
    (htrans : ∀ a b c, le a b = true → le b c = true → le a c = true)
    (p : α → Bool) (a : α) (l : List α) (hl : SortedLe le l) :
    (insertLe le a l).filter p =
      if p a then insertLe le a (l.filter p) else l.filter p := by
  induction l with
  | nil =>
    by_cases hpa : p a = true <;> simp [insertLe, List.filter, hpa]
  | cons b bs ih =>
    rcases List.pairwise_cons.mp hl with ⟨hb, hbs⟩
    rw [insertLe]
    by_cases hab : le a b = true
    · rw [if_pos hab]
      by_cases hpa : p a = true
      · rw [if_pos hpa]
        by_cases hpb : p b = true
        · rw [List.filter_cons_of_pos hpa, List.filter_cons_of_pos hpb,
            insertLe, if_pos hab]
        · rw [List.filter_cons_of_pos hpa, List.filter_cons_of_neg (by simp [hpb])]
          cases hfb : bs.filter p with
          | nil => simp [insertLe]
          | cons x xs =>
            have hx : x ∈ bs.filter p := by rw [hfb]; simp
            have hxmem := (List.mem_filter.mp hx).1
            rw [insertLe, if_pos (htrans a b x hab (hb x hxmem))]
      · rw [if_neg hpa, List.filter_cons_of_neg (by simp [hpa])]
    · rw [if_neg hab]
      by_cases hpb : p b = true
      · rw [List.filter_cons_of_pos hpb, ih hbs]
        by_cases hpa : p a = true
        · simp only [if_pos hpa]
          rw [List.filter_cons_of_pos hpb, insertLe, if_neg hab]
        · simp only [if_neg hpa]
          rw [List.filter_cons_of_pos hpb]
      · rw [List.filter_cons_of_neg (by simp [hpb]), ih hbs,
          List.filter_cons_of_neg (by simp [hpb])]

theorem filter_isortLe {α : Type} (le : α → α → Bool)
    (htot : ∀ a b, le a b = true ∨ le b a = true)
    (htrans : ∀ a b c, le a b = true → le b c = true → le a c = true)
    (p : α → Bool) (l : List α) :
    (isortLe le l).filter p = isortLe le (l.filter p) := by
  induction l with
  | nil => rfl
  | cons a as ih =>
    rw [isortLe, filter_insertLe le htot htrans p a (isortLe le as)
      (sorted_isortLe le htot htrans as)]
    by_cases hpa : p a = true
    · rw [if_pos hpa, List.filter_cons_of_pos hpa, isortLe, ih]
    · rw [if_neg hpa, List.filter_cons_of_neg (by simp [hpa]), ih]

theorem insertLe_ne_nil {α : Type} (le : α → α → Bool) (a : α) (l : List α) :
    insertLe le a l ≠ [] := by
  cases l with
  | nil => simp [insertLe]
  | cons b bs =>
    rw [insertLe]
    split <;> simp

/-- The element the stable sort leaves at the end: the running later-wins fold. -/
def argLater {α : Type} (le : α → α → Bool) : List α → Option α
  | [] => none
  | x :: xs => some (xs.foldl (fun acc r => if le acc r then r else acc) x)

theorem foldl_pick {α : Type} (le : α → α → Bool)
    (htot : ∀ a b, le a b = true ∨ le b a = true)
    (htrans : ∀ a b c, le a b = true → le b c = true → le a c = true)
    (as : List α) (a : α) :
    as.foldl (fun acc r => if le acc r then r else acc) a =
      (match argLater le as with
       | none => a
       | some m => if le a m then m else a) := by
  induction as generalizing a with
  | nil => rfl
  | cons b bs ih =>
    rw [List.foldl_cons, ih]
    have hb : argLater le (b :: bs) = some (bs.foldl (fun acc r => if le acc r then r else acc) b) := rfl
    rw [hb, ih b]
    cases hm : argLater le bs with
    | none => simp
    | some m =>
      by_cases hab : le a b = true
      · by_cases hbm : le b m = true
        · have ham := htrans a b m hab hbm
          simp [hab, hbm, ham]
        · simp [hab, hbm]
      · by_cases hbm : le b m = true
        · simp [hab, hbm]
        · have ham : ¬ le a m = true := by
            intro ham
            rcases htot a b with h1 | h1
            · exact hab h1
            · exact hbm (htrans b a m h1 ham)
          simp [hab, hbm, ham]

theorem getLast_insertLe {α : Type} (le : α → α → Bool)
    (htot : ∀ a b, le a b = true ∨ le b a = true)
    (htrans : ∀ a b c, le a b = true → le b c = true → le a c = true)
    (a : α) (l : List α) (hl : SortedLe le l) :
    (insertLe le a l).getLast? = some (match l.getLast? with
      | none => a
      | some m => if le a m then m else a) := by
  induction l with
  | nil => rfl
  | cons b bs ih =>
    rcases List.pairwise_cons.mp hl with ⟨hb, hbs⟩
    rw [insertLe]
    by_cases hab : le a b = true
    · rw [if_pos hab]
      obtain ⟨m, hm⟩ : ∃ m, (b :: bs).getLast? = some m := by
        cases bs with
        | nil => exact ⟨b, rfl⟩
        | cons c cs =>
          cases hx : (c :: cs).getLast? with
          | none => simp [List.getLast?] at hx
          | some m => exact ⟨m, by rw [List.getLast?_cons_cons, hx]⟩
      have hmem : m ∈ b :: bs := List.mem_of_getLast?_eq_some hm
      have ham : le a m = true := by
        rcases List.mem_cons.mp hmem with rfl | hmm
        · exact hab
        · exact htrans a b m hab (hb m hmm)
      rw [List.getLast?_cons_cons, hm]
      simp only [ham, if_pos]
    · rw [if_neg hab]
      cases bs with
      | nil =>
        rw [show insertLe le a [] = [a] from rfl]
        rw [show ([b] : List α).getLast? = some b from rfl]
        rw [show (b :: [a]).getLast? = some a from rfl]
        simp [hab]
      | cons c cs =>
        obtain ⟨x, xs, hx⟩ : ∃ x xs, insertLe le a (c :: cs) = x :: xs := by
          cases hy : insertLe le a (c :: cs) with
          | nil => exact absurd hy (insertLe_ne_nil le a (c :: cs))
          | cons x xs => exact ⟨x, xs, rfl⟩
        rw [hx, List.getLast?_cons_cons, ← hx, ih hbs, List.getLast?_cons_cons]

theorem getLast_isortLe {α : Type} (le : α → α → Bool)
    (htot : ∀ a b, le a b = true ∨ le b a = true)
    (htrans : ∀ a b c, le a b = true → le b c = true → le a c = true)
    (l : List α) : (isortLe le l).getLast? = argLater le l := by
  induction l with
  | nil => rfl
  | cons a as ih =>
    rw [isortLe, getLast_insertLe le htot htrans a (isortLe le as)
      (sorted_isortLe le htot htrans as), ih]
    have : argLater le (a :: as) =
        some (as.foldl (fun acc r => if le acc r then r else acc) a) := rfl
    rw [this, foldl_pick le htot htrans as a]

theorem mem_dedupLast (l : List Row) (r : Row) (h : r ∈ dedupLast l) : r ∈ l := by
  induction l with
  | nil => simpa [dedupLast] using h
  | cons x xs ih =>
    rw [dedupLast] at h
    by_cases hd : xs.any (fun s => decide (s.url = x.url)) = true
    · rw [if_pos hd] at h
      exact List.mem_cons_of_mem x (ih h)
    · rw [if_neg hd] at h
      rcases List.mem_cons.mp h with rfl | h
      · exact List.mem_cons_self r xs
      · exact List.mem_cons_of_mem x (ih h)

/-- Dedupe keeps, for each url, exactly the last row carrying it. -/
theorem filter_dedupLast (l : List Row) (u : String) :
    (dedupLast l).filter (fun r => decide (r.url = some u)) =
      ((l.filter (fun r => decide (r.url = some u))).getLast?).toList := by
  induction l with
  | nil => rfl
  | cons r rs ih =>
    rw [dedupLast]
    by_cases hdup : rs.any (fun s => decide (s.url = r.url)) = true
    · rw [if_pos hdup]
      by_cases hru : r.url = some u
      · have hne : rs.filter (fun x => decide (x.url = some u)) ≠ [] := by
          rw [List.any_eq_true] at hdup
          obtain ⟨s, hs, hsu⟩ := hdup
          simp only [decide_eq_true_eq] at hsu
          apply List.ne_nil_of_mem (a := s)
          rw [List.mem_filter]
          exact ⟨hs, by simp [hsu, hru]⟩
        obtain ⟨x, xs, hx⟩ : ∃ x xs, rs.filter (fun r => decide (r.url = some u)) = x :: xs := by
          cases hy : rs.filter (fun r => decide (r.url = some u)) with
          | nil => exact absurd hy hne
          | cons x xs => exact ⟨x, xs, rfl⟩
        rw [ih, List.filter_cons_of_pos (by simp [hru]), hx, List.getLast?_cons_cons]
      · rw [ih, List.filter_cons_of_neg (by simp [hru])]
    · rw [if_neg hdup]
      by_cases hru : r.url = some u
      · have hfil : rs.filter (fun x => decide (x.url = some u)) = [] := by
          rw [List.filter_eq_nil_iff]
          intro s hs
          simp only [decide_eq_true_eq]
          intro hsu
          apply hdup
          rw [List.any_eq_true]
          exact ⟨s, hs, by simp [hsu, hru]⟩
        have hfil2 : (dedupLast rs).filter (fun x => decide (x.url = some u)) = [] := by
          rw [List.filter_eq_nil_iff] at hfil ⊢
          intro s hs
          exact hfil s (mem_dedupLast rs s hs)
        rw [List.filter_cons_of_pos (by simp [hru]), hfil2,
          List.filter_cons_of_pos (by simp [hru]), hfil]
        rfl
      · rw [List.filter_cons_of_neg (by simp [hru]), ih,
          List.filter_cons_of_neg (by simp [hru])]

/-- Claim C1 (counterexample): the dedupe rule is not "latest `scraped_at` wins,
absent or tied broken by concatenation order".  Committed row `old` has url `u`
and no `scraped_at`; batch row `new` has url `u` and `scraped_at = 1`.  Both
readings of the claim make the batch row survive (it has the only — hence
latest — `scraped_at`, and it is also the later row in the concatenation), but
the merge keeps the committed `NaT` row: `pandas.sort_values` places `NaT` last
(`na_position='last'`), so `drop_duplicates(keep="last")` keeps the `NaT` row
over every dated row. -/
theorem claim_C1_counterexample :
    mergeDedupeRows [⟨some "u", none, none, "old"⟩] [⟨some "u", some 1, none, "new"⟩] =
      [⟨some "u", none, none, "old"⟩] ∧
    (⟨some "u", none, none, "old"⟩ : Row).scraped = none ∧
    (⟨some "u", some 1, none, "new"⟩ : Row).scraped = some 1 := by
  refine ⟨by decide, rfl, rfl⟩

/-- Claim C1 (amended): for every url `u` present in either the committed input
or the batch input, the merged output contains exactly one row with that url,
and the surviving row is the one with the latest `scraped_at`, where a row with
absent `scraped_at` counts as later than every timestamped row; among rows tied
under that order, the row appearing later in the concatenation (committed rows
first, batch rows second) survives.  `winnerFor` expresses that rule as a fold
over the concatenation. -/
theorem claim_C1_dedupe_amended (oldRows newRows : List Row) (u : String)
    (hex : ∃ r ∈ oldRows ++ newRows, r.url = some u) :
    (mergeDedupeRows oldRows newRows).countP (fun r => decide (r.url = some u)) = 1 ∧
    ∃ w, winnerFor (oldRows ++ newRows) u = some w ∧
      w ∈ mergeDedupeRows oldRows newRows ∧ w.url = some u := by
  have hfun : ∀ (x : Row) (xs : List Row), xs.foldl laterWins x =
      xs.foldl (fun acc r => if scrapedLe acc r then r else acc) x := by
    intro x xs
    induction xs generalizing x with
    | nil => rfl
    | cons y ys ih =>
      rw [List.foldl_cons, List.foldl_cons, ih]
      rfl
  have hwin : winnerFor (oldRows ++ newRows) u =
      argLater scrapedLe
        ((oldRows ++ newRows).filter (fun r => decide (r.url = some u))) := by
    unfold winnerFor argLater
    cases (oldRows ++ newRows).filter (fun r => decide (r.url = some u)) with
    | nil => rfl
    | cons x xs =>
      simp only [Option.some.injEq]
      exact hfun x xs
  have hfne : (oldRows ++ newRows).filter (fun r => decide (r.url = some u)) ≠ [] := by
    obtain ⟨r, hr, hru⟩ := hex
    apply List.ne_nil_of_mem (a := r)
    rw [List.mem_filter]
    exact ⟨hr, by simp [hru]⟩
  obtain ⟨x, xs, hx⟩ : ∃ x xs,
      (oldRows ++ newRows).filter (fun r => decide (r.url = some u)) = x :: xs := by
    cases hy : (oldRows ++ newRows).filter (fun r => decide (r.url = some u)) with
    | nil => exact absurd hy hfne
    | cons x xs => exact ⟨x, xs, rfl⟩
  obtain ⟨w, hw⟩ : ∃ w, winnerFor (oldRows ++ newRows) u = some w := by
    rw [hwin, hx]
    exact ⟨_, rfl⟩
  have hdfil : (dedupLast (isortLe scrapedLe (oldRows ++ newRows))).filter
      (fun r => decide (r.url = some u)) = [w] := by
    rw [filter_dedupLast,
      filter_isortLe scrapedLe scrapedLe_total scrapedLe_trans _ (oldRows ++ newRows),
      getLast_isortLe scrapedLe scrapedLe_total scrapedLe_trans, ← hwin, hw]
    rfl
  have hffil : (mergeDedupeRows oldRows newRows).filter
      (fun r => decide (r.url = some u)) = [w] := by
    rw [mergeDedupeRows]
    have hperm := (isortLe_perm finalLe
      (dedupLast (isortLe scrapedLe (oldRows ++ newRows)))).filter
      (fun r => decide (r.url = some u))
    rw [hdfil] at hperm
    exact List.perm_singleton.mp hperm
  have hwmem : w ∈ (mergeDedupeRows oldRows newRows).filter
      (fun r => decide (r.url = some u)) := by
    rw [hffil]
    simp
  refine ⟨?_, w, hw, (List.mem_filter.mp hwmem).1, ?_⟩
  · rw [List.countP_eq_length_filter, hffil]
    rfl
  · have := (List.mem_filter.mp hwmem).2
    simpa using this

/-- Witness for `claim_C1_dedupe_amended` at a concrete committed row and batch
row sharing the url `"a"`. -/
theorem claim_C1_witness :
    (mergeDedupeRows [⟨some "a", some 0, none, "x"⟩] [⟨some "a", some 5, none, "y"⟩]).countP
      (fun r => decide (r.url = some "a")) = 1 ∧
    ∃ w, winnerFor ([⟨some "a", some 0, none, "x"⟩] ++ [⟨some "a", some 5, none, "y"⟩]) "a" =
      some w ∧
      w ∈ mergeDedupeRows [⟨some "a", some 0, none, "x"⟩] [⟨some "a", some 5, none, "y"⟩] ∧
      w.url = some "a" :=
  claim_C1_dedupe_amended [⟨some "a", some 0, none, "x"⟩]
    [⟨some "a", some 5, none, "y"⟩] "a" (by decide)

/-! ## `scripts/update_csv.py::merge_dedupe`: the shrink guard -/

/-- Number of distinct values (`pandas.Series.nunique`; the caller passes the
non-null values, since `nunique` drops NaN). -/
def distinctCount (l : List String) : Nat := l.dedup.length

/-- Rows of a frame that has no `url` column read back as rows with no url
(`pd.concat` fills the missing column with NaN). -/
def clearUrl (r : Row) : Row := { r with url := none }

/-- The filesystem/parse state `merge_dedupe` starts from: whether `_new.csv`
and the master exist, their parsed rows, and whether each has a `url` column. -/
structure UpdateState where
  tmpExists : Bool
  newRows : List Row
  newHasUrl : Bool
  masterExists : Bool
  oldRows : List Row
  oldHasUrl : Bool

/-- `old_df` as `merge_dedupe` sees it: empty when the master file is missing;
with all urls NaN when the master lacks a `url` column. -/
def oldDfOf (s : UpdateState) : List Row :=
  if s.masterExists then
    (if s.oldHasUrl then s.oldRows else s.oldRows.map clearUrl)
  else []

/-- `old_unique` in the guard: `old_df["url"].nunique()` when the column exists,
otherwise `len(old_df)`. -/
def old_unique (s : UpdateState) : Nat :=
  if s.oldHasUrl then distinctCount ((oldDfOf s).filterMap (fun r => r.url))
  else (oldDfOf s).length

/-- `new_unique` in the guard: `combined["url"].nunique()` on the merged
result. -/
def new_unique (s : UpdateState) : Nat :=
  distinctCount ((mergeDedupeRows (oldDfOf s) s.newRows).filterMap (fun r => r.url))

def shrinkAbortMsg : String :=
  "ABORT: merged master would shrink. Not overwriting jpt.csv. Check paths / spider output."

def missingUrlMsg : String := "New scrape output missing required url column."

/-- `merge_dedupe` from `scripts/update_csv.py`, with `GUARD_AGAINST_SHRINK =
True` and `NEW_WINS_ON_DUPLICATE = True` as in the source.  The result is the
raised error (if any) paired with the rows written over the master path (`none`
when nothing is written): the write happens only after the guard passes. -/
def merge_dedupe (s : UpdateState) : Option String × Option (List Row) :=
  if s.tmpExists = false then (none, none)
  else if s.newHasUrl = false then (some missingUrlMsg, none)
  else
    let combined := mergeDedupeRows (oldDfOf s) s.newRows
    if s.masterExists = true ∧ oldDfOf s ≠ [] then
      if new_unique s < old_unique s then (some shrinkAbortMsg, none)
      else (none, some combined)
    else (none, some combined)

/-- Claim C2: if the merged result's unique-url count is smaller than the
committed input's unique-url count (`old_unique`, which pandas computes as the
distinct non-null urls, falling back to the row count when the master has no
`url` column — the only situation in which the guard can fire), `merge_dedupe`
raises and nothing is written to the committed path: the guard check precedes
the write, so the previously committed file is untouched. -/
theorem claim_C2_shrink_guard (s : UpdateState)
    (h1 : s.tmpExists = true) (h2 : s.newHasUrl = true)
    (h5 : new_unique s < old_unique s) :
    (merge_dedupe s).1 = some shrinkAbortMsg ∧ (merge_dedupe s).2 = none := by
  have hz : oldDfOf s = [] → old_unique s = 0 := by
    intro hnil
    rw [old_unique, hnil]
    cases hq : s.oldHasUrl
    · rw [if_neg (by decide : ¬ (false = true))]
      rfl
    · rw [if_pos rfl]
      rfl
  have h4 : oldDfOf s ≠ [] := by
    intro hnil
    rw [hz hnil] at h5
    exact Nat.not_lt_zero _ h5
  have h3 : s.masterExists = true := by
    cases hm : s.masterExists
    · exact absurd (by rw [oldDfOf, if_neg (by simp [hm])]) h4
    · rfl
  rw [merge_dedupe, if_neg (by simp [h1]), if_neg (by simp [h2]),
    if_pos ⟨h3, h4⟩, if_pos h5]
  exact ⟨rfl, rfl⟩

/-- Witness for `claim_C2_shrink_guard`: a master with two rows but no `url`
column and a one-url batch make the merged unique-url count (1) smaller than
`old_unique` (row count 2), so the merge aborts without writing. -/
theorem claim_C2_witness :
    (merge_dedupe
      { tmpExists := true
        newRows := [⟨some "a", some 1, none, "n"⟩]
        newHasUrl := true
        masterExists := true
        oldRows := [⟨some "x", none, none, "o1"⟩, ⟨some "y", none, none, "o2"⟩]
        oldHasUrl := false }).1 = some shrinkAbortMsg ∧
    (merge_dedupe
      { tmpExists := true
        newRows := [⟨some "a", some 1, none, "n"⟩]
        newHasUrl := true
        masterExists := true
        oldRows := [⟨some "x", none, none, "o1"⟩, ⟨some "y", none, none, "o2"⟩]
        oldHasUrl := false }).2 = none :=
  claim_C2_shrink_guard _ rfl rfl (by decide)

/-! ## Zero-row behavior: `merge_three_way.py` versus `merge_jpt_csv.py` -/

/-- Inputs of `scripts/merge_three_way.py::main`: the two files (absent file →
`none`, which `load_csv` reads as an empty frame) and whether each nonempty
frame has a `url` column. -/
structure TwState where
  master : Option (List Row)
  daily : Option (List Row)
  masterHasUrl : Bool
  dailyHasUrl : Bool

/-- `main` from `scripts/merge_three_way.py`: raises when both inputs are
empty, checks the `url` column, merges (same sort/dedupe pipeline as
`update_csv.py`) and writes atomically. -/
def merge_three_way (s : TwState) : Except String (List Row) :=
  let m := s.master.getD []
  let d := s.daily.getD []
  if m = [] ∧ d = [] then .error "Both MASTER and DAILY are empty. Nothing to merge."
  else if m ≠ [] ∧ s.masterHasUrl = false then .error "MASTER CSV missing required 'url' column."
  else if d ≠ [] ∧ s.dailyHasUrl = false then .error "DAILY CSV missing required 'url' column."
  else .ok (mergeDedupeRows m d)

/-- A row of the root `scripts/merge_jpt_csv.py` merge, which reads with
`dtype=str, keep_default_na=False`: the url is a plain (possibly empty) string;
`scraped`/`pub` model the `pd.to_datetime(..., errors="coerce")` values. -/
structure RawRow where
  url : String
  scraped : Option Nat
  pub : Option Nat
  title : String
deriving DecidableEq

/-- `_normalize` from `scripts/merge_jpt_csv.py`: strip the string fields and
keep only rows with a nonempty url. -/
def normalizeRows (rs : List RawRow) : List RawRow :=
  (rs.map (fun r => { r with url := r.url.trim })).filter (fun r => decide (r.url ≠ ""))

def MIN_UNIQUE_URLS : Nat := 7000

/-- `pd.Timestamp("2014-01-01")`, encoded as yyyymmdd. -/
def MAX_ALLOWED_MIN_DATE : Nat := 20140101

/-- `sort_values(["url", "_scraped"], ascending=[True, True])`: url
lexicographically, then `scraped_at` ascending with `NaT` last. -/
def urlScrapedLe (r s : RawRow) : Bool :=
  if r.url = s.url then optLe r.scraped s.scraped else decide (r.url ≤ s.url)

def pubDescLeRaw (r s : RawRow) : Bool := optDescLe r.pub s.pub

def dedupLastRaw : List RawRow → List RawRow
  | [] => []
  | r :: rs =>
    if rs.any (fun x => decide (x.url = r.url)) then dedupLastRaw rs
    else r :: dedupLastRaw rs

/-- The combine step of `scripts/merge_jpt_csv.py::main`: concatenate, sort by
url and `scraped_at`, dedupe by url keeping the last, sort newest first. -/
def jptCombine (oldRows newRows : List RawRow) : List RawRow :=
  isortLe pubDescLeRaw (dedupLastRaw (isortLe urlScrapedLe (oldRows ++ newRows)))

/-- `main` from the root `scripts/merge_jpt_csv.py`.  The result distinguishes
the three outcomes: `Except.error` (a guard raised), `Except.ok none`
(returned without writing), `Except.ok (some rows)` (wrote `rows`). -/
def merge_jpt_csv (masterFile newFile : Option (List RawRow)) :
    Except String (Option (List RawRow)) :=
  let oldRaw := masterFile.getD []
  let newRaw := newFile.getD []
  let old := normalizeRows oldRaw
  let nw := normalizeRows newRaw
  if old = [] ∧ nw = [] then .ok none
  else if masterFile.isSome = true ∧ oldRaw ≠ [] then
    if old = [] then .error "ABORT: master parsed empty. Not overwriting."
    else if distinctCount (old.map (fun r => r.url)) < MIN_UNIQUE_URLS then
      .error "ABORT: master looks wrong (too few unique URLs). Not overwriting."
    else
      match (old.filterMap (fun r => r.pub)).min? with
      | some mn =>
        if MAX_ALLOWED_MIN_DATE < mn then
          .error "ABORT: master history too recent. Not overwriting."
        else .ok (some (jptCombine old nw))
      | none => .ok (some (jptCombine old nw))
  else .ok (some (jptCombine old nw))

/-- Claim C6 (counterexample): with both inputs empty, the root
`scripts/merge_jpt_csv.py` does not abort with an error — it prints
"Both master and new are empty. Nothing to do." and returns, a silent no-op
(`Except.ok none`: no error raised, nothing written), contradicting the claim
that the zero-row condition always aborts and is never downgraded to a no-op
return. -/
theorem claim_C6_counterexample : merge_jpt_csv none none = Except.ok none := rfl

/-- Claim C6 (amended): when both inputs parse to zero valid rows,
`merge_three_way.py` aborts with an error, while the `merge_jpt_csv.py` variant
returns without writing (a no-op return that leaves the committed file
untouched but raises no error). -/
theorem claim_C6_zero_rows_amended (tw : TwState) (mj nj : Option (List RawRow))
    (h1 : tw.master.getD [] = []) (h2 : tw.daily.getD [] = [])
    (h3 : normalizeRows (mj.getD []) = []) (h4 : normalizeRows (nj.getD []) = []) :
    merge_three_way tw = Except.error "Both MASTER and DAILY are empty. Nothing to merge." ∧
    merge_jpt_csv mj nj = Except.ok none := by
  constructor
  · rw [merge_three_way]
    simp only [h1, h2]
    rfl
  · rw [merge_jpt_csv]
    simp only [h3, h4]
    rfl

/-- Witness for `claim_C6_zero_rows_amended` with both files absent in both
scripts. -/
theorem claim_C6_witness :
    merge_three_way ⟨none, none, true, true⟩ =
      Except.error "Both MASTER and DAILY are empty. Nothing to merge." ∧
    merge_jpt_csv none none = Except.ok none :=
  claim_C6_zero_rows_amended _ none none rfl rfl rfl rfl

/-! ## Atomic commit: temp file in the destination directory, then rename -/

/-- `MASTER_CSV` of `scripts/update_csv.py` (repo-relative). -/
def masterPath : String := "jpt_scraper/data/jpt.csv"

/-- Drop a final `.ext` extension from a path: everything from the last dot of
the final component on (`pathlib.PurePath` suffix semantics for paths whose
last component has an extension). -/
def dropLastExt (l : List Char) : List Char :=
  match l.reverse.span (fun c => ¬(c = '.') ∧ ¬(c = '/')) with
  | (_, '.' :: rest2) => rest2.reverse
  | _ => l

/-- `pathlib.Path.with_suffix`: replace the extension by `suffix`. -/
def with_suffix (p : String) (suffix : String) : String :=
  String.mk (dropLastExt p.data ++ suffix.data)

/-- `tmp_master = MASTER_CSV.with_suffix(".csv.tmp")` from `update_csv.py`
(the `merge_worldoil.py` form `path.with_suffix(path.suffix + ".tmp")` yields
the same path). -/
def tmpPath : String := with_suffix masterPath ".csv.tmp"

/-- The directory part of a path: everything up to and including the last
slash. -/
def dirOf (p : String) : String :=
  String.mk (p.data.reverse.dropWhile (fun c => ¬(c = '/'))).reverse

/-- A filesystem as a map from paths to file contents (`none` = absent). -/
def FsMap : Type := String → Option (List Row)

/-- The two filesystem operations the commit sequence performs. -/
inductive FsEvent where
  | write (p : String) (content : List Row)
  | rename (src dst : String)

def setPath (fs : FsMap) (p : String) (c : Option (List Row)) : FsMap :=
  fun q => if q = p then c else fs q

/-- Effect of one event: `write` creates/overwrites the file; `rename` is
`Path.replace` (atomic on POSIX): the destination takes the source content and
the source disappears. -/
def applyEv (fs : FsMap) : FsEvent → FsMap
  | .write p content => setPath fs p (some content)
  | .rename src dst => setPath (setPath fs dst (fs src)) src none

def runEvents (fs : FsMap) (evs : List FsEvent) : FsMap := evs.foldl applyEv fs

/-- The commit sequence of `merge_dedupe` (and, identically shaped,
`merge_three_way.py` and `merge_worldoil.py::atomic_write_csv`): write the
temp file, then rename it over the master. -/
def commitEvents (merged : List Row) : List FsEvent :=
  [FsEvent.write tmpPath merged, FsEvent.rename tmpPath masterPath]

/-- The write step of the root `scripts/merge_jpt_csv.py::main` (lines at the
end of `main`): `combined.to_csv(OUT)` with `OUT = MASTER` — a direct write to
the committed path, with no temporary file and no rename. -/
def jptCommitEvents (merged : List Row) : List FsEvent :=
  [FsEvent.write masterPath merged]

/-- Whether an event is a `write` directly to path `p`. -/
def isWriteTo (e : FsEvent) (p : String) : Bool :=
  match e with
  | .write q _ => decide (q = p)
  | .rename _ _ => false

/-- Claim C3 (counterexample): the commit step of `merge_jpt_csv.py` contains
an event that writes directly to the committed path — it never creates a
temporary file and never renames, so the claim that the merge-commit engine
always commits via temp-then-rename is false for this script. -/
theorem claim_C3_counterexample :
    ∃ e ∈ jptCommitEvents [], isWriteTo e masterPath = true :=
  ⟨FsEvent.write masterPath [], List.mem_cons_self _ _, by decide⟩

/-- Claim C3 (amended): for `update_csv.py::merge_dedupe`,
`merge_three_way.py` and `merge_worldoil.py::atomic_write_csv` the commit is
atomic.  After any prefix of the commit event sequence the master path holds
either its original content or exactly the full merged rows (never a partial
state observable at the master path); no event writes directly to the master
path (the only write targets the temp file); the temp file lives in the same
directory as the master, so the final rename does not cross a filesystem
boundary.  The `merge_jpt_csv.py` commit, by contrast, is the single direct
write to the committed path. -/
theorem claim_C3_atomic_commit (fs0 : FsMap) (merged : List Row) :
    (∀ k : Nat,
      runEvents fs0 ((commitEvents merged).take k) masterPath = fs0 masterPath ∨
      runEvents fs0 ((commitEvents merged).take k) masterPath = some merged) ∧
    (∀ e ∈ commitEvents merged, isWriteTo e masterPath = false) ∧
    dirOf tmpPath = dirOf masterPath ∧ tmpPath ≠ masterPath ∧
    jptCommitEvents merged = [FsEvent.write masterPath merged] := by
  have hne : (masterPath = tmpPath) = False := by
    simp only [eq_iff_iff, iff_false]
    decide
  refine ⟨?_, ?_, by decide, by decide, rfl⟩
  · intro k
    match k with
    | 0 => exact Or.inl rfl
    | 1 =>
      left
      show setPath fs0 tmpPath (some merged) masterPath = fs0 masterPath
      rw [setPath]
      simp only [hne, if_false]
    | (n + 2) =>
      right
      simp only [commitEvents, List.take_succ_cons, List.take_nil]
      show setPath (setPath (setPath fs0 tmpPath (some merged)) masterPath
        ((setPath fs0 tmpPath (some merged)) tmpPath)) tmpPath none masterPath = some merged
      rw [setPath, if_neg (by decide), setPath, if_pos rfl, setPath, if_pos rfl]
  · intro e he
    simp only [commitEvents, List.mem_cons, List.not_mem_nil, or_false] at he
    rcases he with h | h
    · rw [h]
      show decide (tmpPath = masterPath) = false
      decide
    · rw [h]; rfl

/-- Witness for `claim_C3_atomic_commit` at a concrete initial filesystem and
merged content, reading off the first-prefix disjunction and the no-direct-write
fact for the write event. -/
theorem claim_C3_witness :
    (runEvents (fun _ => none) ((commitEvents [⟨some "a", some 1, some 2, "t"⟩]).take 1)
        masterPath = (fun (_ : String) => (none : Option (List Row))) masterPath ∨
      runEvents (fun _ => none) ((commitEvents [⟨some "a", some 1, some 2, "t"⟩]).take 1)
        masterPath = some [⟨some "a", some 1, some 2, "t"⟩]) ∧
    isWriteTo (FsEvent.write tmpPath [⟨some "a", some 1, some 2, "t"⟩]) masterPath = false ∧
    dirOf tmpPath = dirOf masterPath ∧ tmpPath ≠ masterPath ∧
    jptCommitEvents [⟨some "a", some 1, some 2, "t"⟩] =
      [FsEvent.write masterPath [⟨some "a", some 1, some 2, "t"⟩]] := by
  have h := claim_C3_atomic_commit (fun _ => none) [⟨some "a", some 1, some 2, "t"⟩]
  exact ⟨h.1 1, h.2.1 _ (by simp [commitEvents]), h.2.2.1, h.2.2.2.1, h.2.2.2.2⟩

/-! ## Spider frontier: date parsing, stub processing, paging -/

/-- ASCII word character (regex `\w`) for the boundary tests in
`MONTH_DATE_RE`. -/
def isWordCh (c : Char) : Bool := isAlphaCh c || isDigitCh c || decide (c = '_')

/-- Match a literal at the head of the input, returning the rest. -/
def matchLit : List Char → List Char → Option (List Char)
  | [], l => some l
  | _ :: _, [] => none
  | p :: ps, c :: cs => if c = p then matchLit ps cs else none

/-- The month alternation of `MONTH_DATE_RE`, paired with the zero-padded
month string of `date.isoformat()` and the month number. -/
def monthTable : List (List Char × List Char × Nat) :=
  [("January".data, "01".data, 1), ("February".data, "02".data, 2),
   ("March".data, "03".data, 3), ("April".data, "04".data, 4),
   ("May".data, "05".data, 5), ("June".data, "06".data, 6),
   ("July".data, "07".data, 7), ("August".data, "08".data, 8),
   ("September".data, "09".data, 9), ("October".data, "10".data, 10),
   ("November".data, "11".data, 11), ("December".data, "12".data, 12)]

def findMonth : List (List Char × List Char × Nat) → List Char →
    Option (List Char × Nat × List Char)
  | [], _ => none
  | (nm, mm, m) :: rest, l =>
    match matchLit nm l with
    | some r => some (mm, m, r)
    | none => findMonth rest l

/-- One attempt of `MONTH_DATE_RE` at a fixed position (`prevIsWord` tells
whether the character before the position is a word character, for the leading
word boundary).  Yields the month number and the month / day / year digit
strings of the match.  The day run may not exceed two digits and the year run
must be exactly four digits followed by a non-word character: with longer runs
every backtracking alternative of the regex fails at this position, since
neither the whitespace runs nor the fixed-width digit groups can absorb the
surplus digits. -/
def matchRegexAt (prevIsWord : Bool) (l : List Char) :
    Option (Nat × List Char × List Char × List Char) :=
  if prevIsWord then none
  else
    match findMonth monthTable l with
    | none => none
    | some (mm, m, r1) =>
      let ws1 := r1.takeWhile isWsCh
      let r2 := r1.dropWhile isWsCh
      if ws1 = [] then none
      else
        let ds := r2.takeWhile isDigitCh
        let r3 := r2.dropWhile isDigitCh
        if ds = [] ∨ 2 < ds.length then none
        else
          match r3 with
          | ',' :: r4 =>
            let ws2 := r4.takeWhile isWsCh
            let r5 := r4.dropWhile isWsCh
            if ws2 = [] then none
            else
              let ys := r5.takeWhile isDigitCh
              let r6 := r5.dropWhile isDigitCh
              if ys.length = 4 then
                if (match r6 with | c :: _ => isWordCh c | [] => false) then none
                else some (m, mm, ds, ys)
              else none
          | _ => none

/-- `re.search`: try the pattern at every position left to right, tracking
whether the previous character is a word character. -/
def searchDate : Bool → List Char → Option (Nat × List Char × List Char × List Char)
  | _, [] => none
  | prev, c :: cs =>
    match matchRegexAt prev (c :: cs) with
    | some r => some r
    | none => searchDate (isWordCh c) cs

def digitsToNat (ds : List Char) : Nat :=
  ds.foldl (fun acc c => 10 * acc + (cp c - 48)) 0

/-- Gregorian month length, as `dateutil`/`datetime` validate it. -/
def daysInMonth (m y : Nat) : Nat :=
  if m = 2 then (if y % 4 = 0 ∧ (y % 100 ≠ 0 ∨ y % 400 = 0) then 29 else 28)
  else if m = 4 ∨ m = 6 ∨ m = 9 ∨ m = 11 then 30 else 31

/-- `parse_date_from_text` from the spiders: search `MONTH_DATE_RE`, feed the
first match to `dateutil.parser.parse` (which raises on day 0, a day beyond
the month length, or year 0 — caught, giving `None`), and return the
`YYYY-MM-DD` ISO form. -/
def parse_date_from_text (text : List Char) : Option (List Char) :=
  match searchDate false text with
  | none => none
  | some (m, mm, ds, ys) =>
    if digitsToNat ys = 0 ∨ digitsToNat ds = 0 ∨
        daysInMonth m (digitsToNat ys) < digitsToNat ds then none
    else some (ys ++ '-' :: (mm ++ '-' :: (if ds.length = 1 then '0' :: ds else ds)))

/-- A listing stub as the spiders' `parse` sees it: the title link href (if
any) and the text the date is parsed from (byline text for JPT, news-date text
for World Oil). -/
structure Stub where
  href : Option String
  dateText : String
deriving DecidableEq

/-- `if not href: continue` — href missing or empty is falsy. -/
def hrefOk (s : Stub) : Bool :=
  match s.href with
  | some h => decide (h ≠ "")
  | none => false

/-- Code-point lexicographic order on character lists, as Python compares
strings. -/
def lexLe : List Char → List Char → Bool
  | [], _ => true
  | _ :: _, [] => false
  | a :: as, b :: bs => if a = b then lexLe as bs else decide (cp a < cp b)

/-- Python `s <= t` on strings. -/
def strLeB (a b : String) : Bool := lexLe a.data b.data

/-- The per-page stub loop of `parse`: skip stubs without href, skip stubs
whose date does not parse, hard-stop (returning the yields so far and the
stopped flag) when a parsed date is `<=` the configured last date, otherwise
yield the detail fetch for the stub paired with its parsed date. -/
def processStubs (lastDate : Option String) : List Stub → List (Stub × String) × Bool
  | [] => ([], false)
  | s :: ss =>
    if hrefOk s = false then processStubs lastDate ss
    else
      match parse_date_from_text s.dateText.data with
      | none => processStubs lastDate ss
      | some d =>
        match lastDate with
        | some ld =>
          if strLeB (String.mk d) ld = true then ([], true)
          else ((s, String.mk d) :: (processStubs (some ld) ss).1,
            (processStubs (some ld) ss).2)
        | none => ((s, String.mk d) :: (processStubs none ss).1, (processStubs none ss).2)

/-- A listing page: its stubs and whether a next-page link exists. -/
structure PageT where
  stubs : List Stub
  nextLink : Bool

/-- The paging loop of `parse`: process the page's stubs; unless the hard stop
fired, follow the next link while `max_pages == 0 or pages_seen < max_pages`
(`pages_seen` is incremented on entry, so `seen` counts the current page). -/
def crawl (lastDate : Option String) (maxPages : Nat) : List PageT → Nat → List (Stub × String)
  | [], _ => []
  | p :: ps, seen =>
    (processStubs lastDate p.stubs).1 ++
      (if (processStubs lastDate p.stubs).2 = true then []
       else if p.nextLink = true ∧ (maxPages = 0 ∨ seen < maxPages) then
         crawl lastDate maxPages ps (seen + 1)
       else [])

/-- A whole run starts on page 1. -/
def crawlRun (lastDate : Option String) (maxPages : Nat) (pages : List PageT) :
    List (Stub × String) :=
  crawl lastDate maxPages pages 1

def pageDates (p : PageT) : List String :=
  p.stubs.filterMap (fun s => (parse_date_from_text s.dateText.data).map (fun d => String.mk d))

def nonIncreasingB : List String → Bool
  | [] => true
  | [_] => true
  | a :: b :: rest => strLeB b a && nonIncreasingB (b :: rest)

/-- The parsed stub dates of a listing page are non-increasing. -/
def datesNonIncreasing (p : PageT) : Bool := nonIncreasingB (pageDates p)

theorem processStubs_cons_nohref (lastDate : Option String) (s : Stub) (ss : List Stub)
    (hh : hrefOk s = false) :
    processStubs lastDate (s :: ss) = processStubs lastDate ss := by
  simp only [processStubs]
  rw [if_pos hh]

theorem processStubs_cons_nodate (lastDate : Option String) (s : Stub) (ss : List Stub)
    (hh : hrefOk s = true) (hp : parse_date_from_text s.dateText.data = none) :
    processStubs lastDate (s :: ss) = processStubs lastDate ss := by
  simp only [processStubs]
  rw [if_neg (by simp [hh]), hp]

theorem processStubs_cons_yield_none (s : Stub) (ss : List Stub) (d : List Char)
    (hh : hrefOk s = true) (hp : parse_date_from_text s.dateText.data = some d) :
    processStubs none (s :: ss) =
      ((s, String.mk d) :: (processStubs none ss).1, (processStubs none ss).2) := by
  simp only [processStubs]
  rw [if_neg (by simp [hh]), hp]

theorem processStubs_cons_stop (D : String) (s : Stub) (ss : List Stub) (d : List Char)
    (hh : hrefOk s = true) (hp : parse_date_from_text s.dateText.data = some d)
    (hle : strLeB (String.mk d) D = true) :
    processStubs (some D) (s :: ss) = ([], true) := by
  simp only [processStubs]
  rw [if_neg (by simp [hh]), hp]
  exact if_pos hle

theorem processStubs_cons_go (D : String) (s : Stub) (ss : List Stub) (d : List Char)
    (hh : hrefOk s = true) (hp : parse_date_from_text s.dateText.data = some d)
    (hle : strLeB (String.mk d) D = false) :
    processStubs (some D) (s :: ss) =
      ((s, String.mk d) :: (processStubs (some D) ss).1, (processStubs (some D) ss).2) := by
  simp only [processStubs]
  rw [if_neg (by simp [hh]), hp]
  exact if_neg (by simp [hle])

theorem processStubs_none_snd (ss : List Stub) : (processStubs none ss).2 = false := by
  induction ss with
  | nil => rfl
  | cons s ss ih =>
    by_cases hh : hrefOk s = false
    · rw [processStubs_cons_nohref none s ss hh]
      exact ih
    · have hh' : hrefOk s = true := by
        cases hb : hrefOk s
        · exact absurd hb hh
        · rfl
      cases hp : parse_date_from_text s.dateText.data with
      | none =>
        rw [processStubs_cons_nodate none s ss hh' hp]
        exact ih
      | some d =>
        rw [processStubs_cons_yield_none s ss d hh' hp]
        exact ih

theorem takeWhile_of_all (p : Stub × String → Bool) (l : List (Stub × String))
    (h : l.all p = true) : l.takeWhile p = l := by
  induction l with
  | nil => rfl
  | cons a l ih =>
    rw [List.all_cons, Bool.and_eq_true] at h
    rw [List.takeWhile_cons, if_pos h.1, ih h.2]

theorem takeWhile_append_all (p : Stub × String → Bool) (l1 l2 : List (Stub × String))
    (h : l1.all p = true) : (l1 ++ l2).takeWhile p = l1 ++ l2.takeWhile p := by
  induction l1 with
  | nil => rfl
  | cons a l ih =>
    rw [List.all_cons, Bool.and_eq_true] at h
    rw [List.cons_append, List.takeWhile_cons, if_pos h.1, ih h.2, List.cons_append]

theorem takeWhile_append_not_all (p : Stub × String → Bool) (l1 l2 : List (Stub × String))
    (h : l1.all p = false) : (l1 ++ l2).takeWhile p = l1.takeWhile p := by
  induction l1 with
  | nil => cases h
  | cons a l ih =>
    rw [List.all_cons] at h
    rw [List.cons_append, List.takeWhile_cons, List.takeWhile_cons]
    by_cases hp : p a = true
    · rw [if_pos hp, if_pos hp, ih (by simpa [hp] using h)]
    · rw [if_neg hp, if_neg hp]

/-- A hard-stop pass over one page's stubs yields exactly the longest prefix of
the unrestricted yields whose dates exceed the last date, and stops exactly
when some unrestricted yield fails that test. -/
theorem processStubs_someD (D : String) (ss : List Stub) :
    processStubs (some D) ss =
      ((processStubs none ss).1.takeWhile (fun sd => !strLeB sd.2 D),
        !((processStubs none ss).1.all (fun sd => !strLeB sd.2 D))) := by
  induction ss with
  | nil => rfl
  | cons s ss ih =>
    by_cases hh : hrefOk s = false
    · rw [processStubs_cons_nohref (some D) s ss hh, processStubs_cons_nohref none s ss hh]
      exact ih
    · have hh' : hrefOk s = true := by
        cases hb : hrefOk s
        · exact absurd hb hh
        · rfl
      cases hp : parse_date_from_text s.dateText.data with
      | none =>
        rw [processStubs_cons_nodate (some D) s ss hh' hp,
          processStubs_cons_nodate none s ss hh' hp]
        exact ih
      | some d =>
        rw [processStubs_cons_yield_none s ss d hh' hp]
        by_cases hle : strLeB (String.mk d) D = true
        · have hpred : (!strLeB (String.mk d) D) = false := by
            rw [hle]
            rfl
          rw [processStubs_cons_stop D s ss d hh' hp hle, List.takeWhile_cons, List.all_cons,
            show (!strLeB ((s, String.mk d) : Stub × String).2 D) = false from hpred]
          rfl
        · have hle' : strLeB (String.mk d) D = false := by
            cases hb : strLeB (String.mk d) D
            · rfl
            · exact absurd hb hle
          have hpred : (!strLeB (String.mk d) D) = true := by
            rw [hle']
            rfl
          have ih1 : (processStubs (some D) ss).1 =
              List.takeWhile (fun sd : Stub × String => !strLeB sd.2 D)
                (processStubs none ss).1 := by
            rw [ih]
          have ih2 : (processStubs (some D) ss).2 =
              !((processStubs none ss).1.all (fun sd : Stub × String => !strLeB sd.2 D)) := by
            rw [ih]
          rw [processStubs_cons_go D s ss d hh' hp hle', ih1, ih2, List.takeWhile_cons,
            List.all_cons,
            show (!strLeB ((s, String.mk d) : Stub × String).2 D) = true from hpred]
          rfl

/-- A hard-stop crawl yields exactly the longest prefix of the unrestricted
crawl whose dates exceed the last date. -/
theorem crawl_someD (D : String) (maxPages : Nat) (pages : List PageT) (seen : Nat) :
    crawl (some D) maxPages pages seen =
      (crawl none maxPages pages seen).takeWhile (fun sd => !strLeB sd.2 D) := by
  induction pages generalizing seen with
  | nil => rfl
  | cons p ps ih =>
    simp only [crawl, processStubs_someD D p.stubs, processStubs_none_snd]
    by_cases hall : (processStubs none p.stubs).1.all (fun sd => !strLeB sd.2 D) = true
    · have hstop : (!(processStubs none p.stubs).1.all (fun sd => !strLeB sd.2 D)) = false := by
        rw [hall]
        rfl
      rw [takeWhile_append_all _ _ _ hall, takeWhile_of_all _ _ hall, hstop,
        if_neg (by decide : ¬ (false = true)), if_neg (by decide : ¬ (false = true))]
      by_cases hc : p.nextLink = true ∧ (maxPages = 0 ∨ seen < maxPages)
      · rw [if_pos hc, if_pos hc, ih (seen + 1)]
      · rw [if_neg hc, if_neg hc]
        rfl
    · have hall' : (processStubs none p.stubs).1.all (fun sd => !strLeB sd.2 D) = false := by
        cases hb : (processStubs none p.stubs).1.all (fun sd => !strLeB sd.2 D)
        · rfl
        · exact absurd hb hall
      have hstop : (!(processStubs none p.stubs).1.all (fun sd => !strLeB sd.2 D)) = true := by
        rw [hall']
        rfl
      rw [takeWhile_append_not_all _ _ _ hall', hstop, if_pos rfl, List.append_nil]

/-- Claim C4: with a hard-stop date `D` configured and non-increasing stub
dates on each listing page, the run schedules detail fetches for exactly the
longest prefix of the unrestricted run whose dates exceed `D` (hence every
reachable stub with date beyond `D` preceding the first stub at or before `D`,
and nothing after it); every scheduled stub's date strictly exceeds `D`; and on
a page where the stop fires, the yields are only those before the stopping
stub and no later page contributes anything. -/
theorem claim_C4_hard_stop (pages : List PageT) (maxPages : Nat) (D : String)
    (hmono : ∀ p ∈ pages, datesNonIncreasing p = true) :
    crawlRun (some D) maxPages pages =
      (crawlRun none maxPages pages).takeWhile (fun sd => !strLeB sd.2 D) ∧
    (∀ sd ∈ crawlRun (some D) maxPages pages, strLeB sd.2 D = false) ∧
    (∀ p ps seen, (processStubs (some D) p.stubs).2 = true →
      crawl (some D) maxPages (p :: ps) seen = (processStubs (some D) p.stubs).1) := by
  refine ⟨crawl_someD D maxPages pages 1, ?_, ?_⟩
  · intro sd hmem
    rw [crawlRun, crawl_someD] at hmem
    have h2 := List.mem_takeWhile_imp hmem
    cases hb : strLeB sd.2 D
    · rfl
    · rw [hb] at h2
      cases h2
  · intro p ps seen hstop
    simp only [crawl, hstop]
    rw [if_pos trivial, List.append_nil]

def stubA : Stub := ⟨some "https://jpt.spe.org/a", "Posted January 12, 2024"⟩

def stubB : Stub := ⟨some "https://jpt.spe.org/b", "Posted January 10, 2024"⟩

def stubC : Stub := ⟨some "https://jpt.spe.org/c", "Posted January 5, 2024"⟩

def stubN : Stub := ⟨some "https://jpt.spe.org/n", "no date in this byline"⟩

def pageOne : PageT := ⟨[stubA, stubB], true⟩

def pageTwo : PageT := ⟨[stubC], false⟩

/-- Witness for `claim_C4_hard_stop`: two pages of dated stubs with hard stop
at 2024-01-10, which fires at the second stub of the first page. -/
theorem claim_C4_witness :
    crawlRun (some "2024-01-10") 0 [pageOne, pageTwo] =
      (crawlRun none 0 [pageOne, pageTwo]).takeWhile
        (fun sd => !strLeB sd.2 "2024-01-10") ∧
    strLeB "2024-01-12" "2024-01-10" = false ∧
    crawl (some "2024-01-10") 0 (pageOne :: [pageTwo]) 1 =
      (processStubs (some "2024-01-10") pageOne.stubs).1 := by
  have h := claim_C4_hard_stop [pageOne, pageTwo] 0 "2024-01-10" (by decide)
  exact ⟨h.1, h.2.1 (stubA, "2024-01-12") (by decide),
    h.2.2 pageOne [pageTwo] 1 (by decide)⟩

theorem processStubs_skip_mid (lastDate : Option String) (pre post : List Stub) (s : Stub)
    (h : parse_date_from_text s.dateText.data = none) :
    processStubs lastDate (pre ++ s :: post) = processStubs lastDate (pre ++ post) := by
  induction pre with
  | nil =>
    simp only [List.nil_append]
    by_cases hh : hrefOk s = false
    · exact processStubs_cons_nohref lastDate s post hh
    · have hh' : hrefOk s = true := by
        cases hb : hrefOk s
        · exact absurd hb hh
        · rfl
      exact processStubs_cons_nodate lastDate s post hh' h
  | cons q pre ih =>
    simp only [List.cons_append]
    by_cases hh : hrefOk q = false
    · rw [processStubs_cons_nohref lastDate q _ hh, processStubs_cons_nohref lastDate q _ hh]
      exact ih
    · have hh' : hrefOk q = true := by
        cases hb : hrefOk q
        · exact absurd hb hh
        · rfl
      cases hp : parse_date_from_text q.dateText.data with
      | none =>
        rw [processStubs_cons_nodate lastDate q _ hh' hp,
          processStubs_cons_nodate lastDate q _ hh' hp]
        exact ih
      | some d =>
        cases lastDate with
        | none =>
          rw [processStubs_cons_yield_none q _ d hh' hp,
            processStubs_cons_yield_none q _ d hh' hp, ih]
        | some D =>
          cases hle : strLeB (String.mk d) D with
          | true =>
            rw [processStubs_cons_stop D q _ d hh' hp hle,
              processStubs_cons_stop D q _ d hh' hp hle]
          | false =>
            rw [processStubs_cons_go D q _ d hh' hp hle,
              processStubs_cons_go D q _ d hh' hp hle, ih]

theorem processStubs_mem_parse (lastDate : Option String) (ss : List Stub) (t : Stub)
    (d : String) (hmem : (t, d) ∈ (processStubs lastDate ss).1) :
    parse_date_from_text t.dateText.data = some d.data := by
  induction ss with
  | nil => exact absurd hmem (List.not_mem_nil _)
  | cons s ss ih =>
    by_cases hh : hrefOk s = false
    · rw [processStubs_cons_nohref lastDate s ss hh] at hmem
      exact ih hmem
    · have hh' : hrefOk s = true := by
        cases hb : hrefOk s
        · exact absurd hb hh
        · rfl
      cases hp : parse_date_from_text s.dateText.data with
      | none =>
        rw [processStubs_cons_nodate lastDate s ss hh' hp] at hmem
        exact ih hmem
      | some d0 =>
        cases lastDate with
        | none =>
          rw [processStubs_cons_yield_none s ss d0 hh' hp] at hmem
          rcases List.mem_cons.mp hmem with heq | hm
          · injection heq with h1 h2
            rw [h1, h2, hp]
          · exact ih hm
        | some D =>
          cases hle : strLeB (String.mk d0) D with
          | true =>
            rw [processStubs_cons_stop D s ss d0 hh' hp hle] at hmem
            exact absurd hmem (List.not_mem_nil _)
          | false =>
            rw [processStubs_cons_go D s ss d0 hh' hp hle] at hmem
            rcases List.mem_cons.mp hmem with heq | hm
            · injection heq with h1 h2
              rw [h1, h2, hp]
            · exact ih hm

/-- Claim C7: a stub whose date text yields no parseable Month D, YYYY date is
skipped entirely: the stub loop behaves as if the stub were absent (so the
remaining stubs are still processed), no detail fetch pairing that stub with
any date is ever scheduled, and every scheduled stub carries exactly the date
parsed from its own text — never a substituted default. -/
theorem claim_C7_unparseable (lastDate : Option String) (pre post : List Stub) (s : Stub)
    (h : parse_date_from_text s.dateText.data = none) :
    processStubs lastDate (pre ++ s :: post) = processStubs lastDate (pre ++ post) ∧
    (∀ d, (s, d) ∉ (processStubs lastDate (pre ++ s :: post)).1) ∧
    (∀ t d, (t, d) ∈ (processStubs lastDate (pre ++ s :: post)).1 →
      parse_date_from_text t.dateText.data = some d.data) := by
  refine ⟨processStubs_skip_mid lastDate pre post s h, ?_, ?_⟩
  · intro d hmem
    have hp := processStubs_mem_parse lastDate _ s d hmem
    rw [h] at hp
    cases hp
  · intro t d hmem
    exact processStubs_mem_parse lastDate _ t d hmem

/-- Witness for `claim_C7_unparseable`: a dateless stub between two dated ones
is dropped from the yields without disturbing its neighbors. -/
theorem claim_C7_witness :
    processStubs none ([stubA] ++ stubN :: [stubC]) =
      processStubs none ([stubA] ++ [stubC]) ∧
    ((stubN, "2024-01-05") ∉ (processStubs none ([stubA] ++ stubN :: [stubC])).1) ∧
    parse_date_from_text stubA.dateText.data = some ("2024-01-12" : String).data := by
  have h := claim_C7_unparseable none [stubA] [stubC] stubN (by decide)
  exact ⟨h.1, h.2.1 "2024-01-05", h.2.2 stubA "2024-01-12" (by decide)⟩

/-! ## `app.py::extract_countries_from_tags` -/

/-- `_normalize_text` of `app.py` on a string value. -/
def normTextS (t : String) : String := String.mk (normalize_text t.data)

/-- Python `str.upper()` at string level. -/
def pyUpperS (t : String) : String := String.mk (pyUpper t.data)

/-- The `COUNTRY_ABBREV` alias map of `app.py`. -/
def COUNTRY_ABBREV : List (String × String) :=
  [("US", "US"), ("U.S.", "US"), ("USA", "US"), ("United States", "US"),
   ("United States Of America", "US"), ("UK", "UK"), ("U.K.", "UK"),
   ("United Kingdom", "UK"), ("Great Britain", "UK"), ("UK/UKCS", "UK"),
   ("U.K./UKCS", "UK"), ("Britain", "UK"), ("UAE", "UAE"), ("U.A.E.", "UAE"),
   ("United Arab Emirates", "UAE")]

/-- Dictionary lookup `COUNTRY_ABBREV[t]` (with `t in COUNTRY_ABBREV` as
`isSome`). -/
def abbrevLookup (t : String) : Option String :=
  (COUNTRY_ABBREV.find? (fun kv => decide (kv.1 = t))).map (fun kv => kv.2)

/-- `out.add(x)` on the accumulated set, modeled as append-if-absent. -/
def insertNew (x : String) (acc : List String) : List String :=
  if x ∈ acc then acc else acc ++ [x]

/-- One iteration of the tag loop of `extract_countries_from_tags`: skip empty
normalized tags, add the alias map's code on an exact alias hit, else add the
tag itself on a country-set hit, else add the uppercased tag if it uppercases
to US, UK or UAE. -/
def stepTag (country_set : List String) (out : List String) (t : String) : List String :=
  if normTextS t = "" then out
  else
    match abbrevLookup (normTextS t) with
    | some code => insertNew code out
    | none =>
      if normTextS t ∈ country_set then insertNew (normTextS t) out
      else if pyUpperS (normTextS t) ∈ (["US", "UK", "UAE"] : List String) then
        insertNew (pyUpperS (normTextS t)) out
      else out

/-- `extract_countries_from_tags` of `app.py`: fold the tag loop and return
`sorted(out)` (Python's sorted on strings is code-point lexicographic). -/
def extract_countries_from_tags (tags country_set : List String) : List String :=
  isortLe (fun a b => strLeB a b) (tags.foldl (stepTag country_set) [])

/-- The value a single tag contributes (if any), reading the three branches of
the loop body. -/
def tagContribution (t : String) (country_set : List String) : Option String :=
  if normTextS t = "" then none
  else
    match abbrevLookup (normTextS t) with
    | some code => some code
    | none =>
      if normTextS t ∈ country_set then some (normTextS t)
      else if pyUpperS (normTextS t) ∈ (["US", "UK", "UAE"] : List String) then
        some (pyUpperS (normTextS t))
      else none

theorem stepTag_eq (country_set : List String) (out : List String) (t : String) :
    stepTag country_set out t =
      match tagContribution t country_set with
      | some c => insertNew c out
      | none => out := by
  unfold stepTag tagContribution
  by_cases h0 : normTextS t = ""
  · rw [if_pos h0, if_pos h0]
  · rw [if_neg h0, if_neg h0]
    cases ha : abbrevLookup (normTextS t) with
    | some code => rfl
    | none =>
      by_cases h1 : normTextS t ∈ country_set
      · rw [if_pos h1, if_pos h1]
      · rw [if_neg h1, if_neg h1]
        by_cases h2 : pyUpperS (normTextS t) ∈ (["US", "UK", "UAE"] : List String)
        · rw [if_pos h2, if_pos h2]
        · rw [if_neg h2, if_neg h2]

theorem mem_insertNew (x c : String) (acc : List String) :
    c ∈ insertNew x acc ↔ c = x ∨ c ∈ acc := by
  unfold insertNew
  by_cases hx : x ∈ acc
  · rw [if_pos hx]
    constructor
    · exact Or.inr
    · rintro (rfl | h)
      · exact hx
      · exact h
  · rw [if_neg hx]
    rw [List.mem_append, List.mem_singleton]
    exact Or.comm

theorem nodup_insertNew (x : String) (acc : List String) (h : acc.Nodup) :
    (insertNew x acc).Nodup := by
  unfold insertNew
  by_cases hx : x ∈ acc
  · rw [if_pos hx]
    exact h
  · rw [if_neg hx]
    rw [List.nodup_append]
    refine ⟨h, List.nodup_singleton x, ?_⟩
    intro a ha hmem
    rw [List.mem_singleton] at hmem
    rw [hmem] at ha
    exact hx ha

theorem mem_foldl_step (country_set tags acc : List String) (c : String) :
    c ∈ tags.foldl (stepTag country_set) acc ↔
      c ∈ acc ∨ ∃ t, t ∈ tags ∧ tagContribution t country_set = some c := by
  induction tags generalizing acc with
  | nil =>
    rw [List.foldl_nil]
    constructor
    · exact Or.inl
    · rintro (h | ⟨t, ht, _⟩)
      · exact h
      · exact absurd ht (List.not_mem_nil t)
  | cons t tags ih =>
    rw [List.foldl_cons, stepTag_eq]
    cases hc : tagContribution t country_set with
    | none =>
      rw [ih]
      constructor
      · rintro (h | ⟨u, hu, hcu⟩)
        · exact Or.inl h
        · exact Or.inr ⟨u, List.mem_cons_of_mem t hu, hcu⟩
      · rintro (h | ⟨u, hu, hcu⟩)
        · exact Or.inl h
        · rcases List.mem_cons.mp hu with rfl | hu'
          · rw [hcu] at hc
            cases hc
          · exact Or.inr ⟨u, hu', hcu⟩
    | some code =>
      rw [ih]
      constructor
      · rintro (h | ⟨u, hu, hcu⟩)
        · rcases (mem_insertNew code c acc).mp h with rfl | h'
          · exact Or.inr ⟨t, List.mem_cons_self t tags, hc⟩
          · exact Or.inl h'
        · exact Or.inr ⟨u, List.mem_cons_of_mem t hu, hcu⟩
      · rintro (h | ⟨u, hu, hcu⟩)
        · exact Or.inl ((mem_insertNew code c acc).mpr (Or.inr h))
        · rcases List.mem_cons.mp hu with rfl | hu'
          · rw [hcu] at hc
            injection hc with hcode
            exact Or.inl ((mem_insertNew code c acc).mpr (Or.inl hcode))
          · exact Or.inr ⟨u, hu', hcu⟩

theorem nodup_foldl_step (country_set tags acc : List String) (h : acc.Nodup) :
    (tags.foldl (stepTag country_set) acc).Nodup := by
  induction tags generalizing acc with
  | nil => exact h
  | cons t tags ih =>
    rw [List.foldl_cons, stepTag_eq]
    cases hc : tagContribution t country_set with
    | none => exact ih acc h
    | some code => exact ih _ (nodup_insertNew code acc h)

theorem lexLe_total (as bs : List Char) : lexLe as bs = true ∨ lexLe bs as = true := by
  induction as generalizing bs with
  | nil => exact Or.inl rfl
  | cons a as ih =>
    cases bs with
    | nil => exact Or.inr rfl
    | cons b bs =>
      by_cases hab : a = b
      · subst hab
        rcases ih bs with h | h
        · left
          rw [lexLe, if_pos rfl]
          exact h
        · right
          rw [lexLe, if_pos rfl]
          exact h
      · have hcp : cp a ≠ cp b := fun h => hab ((char_eq_iff_cp a b).mpr h)
        rcases Nat.lt_or_ge (cp a) (cp b) with h | h
        · left
          rw [lexLe, if_neg hab]
          exact decide_eq_true h
        · right
          rw [lexLe, if_neg (fun hba => hab hba.symm)]
          exact decide_eq_true (Nat.lt_of_le_of_ne h (fun he => hcp he.symm))

theorem lexLe_trans (as bs cs : List Char) (h1 : lexLe as bs = true)
    (h2 : lexLe bs cs = true) : lexLe as cs = true := by
  induction as generalizing bs cs with
  | nil => rfl
  | cons a as ih =>
    cases bs with
    | nil => cases h1
    | cons b bs =>
      cases cs with
      | nil => cases h2
      | cons c cs =>
        by_cases hab : a = b
        · subst hab
          rw [lexLe, if_pos rfl] at h1
          by_cases hbc : a = c
          · subst hbc
            rw [lexLe, if_pos rfl] at h2 ⊢
            exact ih bs cs h1 h2
          · rw [lexLe, if_neg hbc] at h2 ⊢
            exact h2
        · rw [lexLe, if_neg hab] at h1
          have hlt1 : cp a < cp b := of_decide_eq_true h1
          by_cases hbc : b = c
          · subst hbc
            rw [lexLe, if_neg hab]
            exact decide_eq_true hlt1
          · rw [lexLe, if_neg hbc] at h2
            have hlt2 : cp b < cp c := of_decide_eq_true h2
            have hlt : cp a < cp c := Nat.lt_trans hlt1 hlt2
            have hac : a ≠ c := fun h => by
              rw [h] at hlt
              exact Nat.lt_irrefl _ hlt
            rw [lexLe, if_neg hac]
            exact decide_eq_true hlt

theorem strLeB_total (a b : String) : strLeB a b = true ∨ strLeB b a = true :=
  lexLe_total a.data b.data

theorem strLeB_trans (a b c : String) (h1 : strLeB a b = true) (h2 : strLeB b c = true) :
    strLeB a c = true :=
  lexLe_trans a.data b.data c.data h1 h2

/-- Claim C8 (counterexample): the tag "us" matches neither the alias map
(whose keys are case-sensitive, none equal to "us") nor the recognized-country
set, yet it contributes "US" through the uppercase fallback branch the claim
omits — so "otherwise the tag contributes nothing" is false. -/
theorem claim_C8_counterexample :
    extract_countries_from_tags ["us"] ["US", "UK", "UAE"] = ["US"] ∧
    normTextS "us" = "us" ∧
    abbrevLookup "us" = none ∧
    ¬ (("us" : String) ∈ (["US", "UK", "UAE"] : List String)) := by
  refine ⟨by decide, by decide, by decide, by decide⟩

/-- Claim C8 (amended): a tag contributes its alias code on an exact alias-map
match, else itself on an exact country-set match, else its uppercase form if
that is US, UK or UAE, else nothing; the result lists exactly the contributed
values, without duplicates, sorted lexicographically. -/
theorem claim_C8_precedence_amended (tags country_set : List String) (c : String) :
    (c ∈ extract_countries_from_tags tags country_set ↔
      ∃ t, t ∈ tags ∧ tagContribution t country_set = some c) ∧
    (extract_countries_from_tags tags country_set).Nodup ∧
    SortedLe (fun a b => strLeB a b) (extract_countries_from_tags tags country_set) := by
  refine ⟨?_, ?_, ?_⟩
  · rw [extract_countries_from_tags,
      (isortLe_perm (fun a b => strLeB a b) (tags.foldl (stepTag country_set) [])).mem_iff,
      mem_foldl_step]
    constructor
    · rintro (h | h)
      · exact absurd h (List.not_mem_nil c)
      · exact h
    · exact Or.inr
  · exact (isortLe_perm (fun a b => strLeB a b) _).symm.nodup
      (nodup_foldl_step country_set tags [] List.nodup_nil)
  · exact sorted_isortLe _ strLeB_total strLeB_trans _

/-! ## `clean_list` of both spiders -/

/-- `clean_list` loop body state: output so far is the recursion result, the
`seen` set is the accumulator.  Each element is normalized with
`" ".join(str(x).split()).strip()` (the same computation as `normalize_text`),
then skipped when falsy or already seen. -/
def cleanListAux : List String → List String → List String
  | [], _ => []
  | x :: xs, seen =>
    if normTextS x ≠ "" ∧ normTextS x ∉ seen then
      normTextS x :: cleanListAux xs (normTextS x :: seen)
    else cleanListAux xs seen

/-- `clean_list` from `jpt_latest.py` and `worldoil_news.py` (identical
bodies). -/
def clean_list (xs : List String) : List String := cleanListAux xs []

theorem cleanListAux_mem (xs : List String) : ∀ seen y, y ∈ cleanListAux xs seen →
    y ≠ "" ∧ y ∈ xs.map normTextS ∧ y ∉ seen := by
  induction xs with
  | nil =>
    intro seen y hy
    exact absurd hy (List.not_mem_nil y)
  | cons x xs ih =>
    intro seen y hy
    simp only [cleanListAux] at hy
    by_cases hc : normTextS x ≠ "" ∧ normTextS x ∉ seen
    · rw [if_pos hc] at hy
      rcases List.mem_cons.mp hy with rfl | hmem
      · exact ⟨hc.1, by rw [List.map_cons]; exact List.mem_cons_self _ _, hc.2⟩
      · obtain ⟨h1, h2, h3⟩ := ih (normTextS x :: seen) y hmem
        exact ⟨h1, by rw [List.map_cons]; exact List.mem_cons_of_mem _ h2,
          fun hin => h3 (List.mem_cons_of_mem _ hin)⟩
    · rw [if_neg hc] at hy
      obtain ⟨h1, h2, h3⟩ := ih seen y hy
      exact ⟨h1, by rw [List.map_cons]; exact List.mem_cons_of_mem _ h2, h3⟩

theorem cleanListAux_nodup (xs : List String) : ∀ seen, (cleanListAux xs seen).Nodup := by
  induction xs with
  | nil =>
    intro seen
    exact List.nodup_nil
  | cons x xs ih =>
    intro seen
    simp only [cleanListAux]
    by_cases hc : normTextS x ≠ "" ∧ normTextS x ∉ seen
    · rw [if_pos hc, List.nodup_cons]
      refine ⟨fun hmem => ?_, ih _⟩
      exact (cleanListAux_mem xs _ _ hmem).2.2 (List.mem_cons_self _ _)
    · rw [if_neg hc]
      exact ih seen

theorem cleanListAux_complete (xs : List String) : ∀ seen y, y ∈ xs.map normTextS →
    y ≠ "" → y ∉ seen → y ∈ cleanListAux xs seen := by
  induction xs with
  | nil =>
    intro seen y hy _ _
    rw [List.map_nil] at hy
    exact absurd hy (List.not_mem_nil y)
  | cons x xs ih =>
    intro seen y hy hne hnseen
    rw [List.map_cons] at hy
    simp only [cleanListAux]
    by_cases hc : normTextS x ≠ "" ∧ normTextS x ∉ seen
    · rw [if_pos hc]
      by_cases hyx : y = normTextS x
      · rw [hyx]
        exact List.mem_cons_self _ _
      · rcases List.mem_cons.mp hy with heq | hmem
        · exact absurd heq hyx
        · refine List.mem_cons_of_mem _ (ih _ y hmem hne ?_)
          intro hin
          rcases List.mem_cons.mp hin with h | h
          · exact hyx h
          · exact hnseen h
    · rcases List.mem_cons.mp hy with rfl | hmem
      · exact absurd ⟨hne, hnseen⟩ hc
      · rw [if_neg hc]
        exact ih seen y hmem hne hnseen

theorem cleanListAux_order (xs : List String) : ∀ seen,
    (cleanListAux xs seen).Pairwise
      (fun a b => (xs.map normTextS).indexOf a < (xs.map normTextS).indexOf b) := by
  induction xs with
  | nil =>
    intro seen
    exact List.Pairwise.nil
  | cons x xs ih =>
    intro seen
    simp only [cleanListAux, List.map_cons]
    by_cases hc : normTextS x ≠ "" ∧ normTextS x ∉ seen
    · rw [if_pos hc, List.pairwise_cons]
      constructor
      · intro y hy
        have hyne : normTextS x ≠ y := by
          intro he
          exact (cleanListAux_mem xs _ y hy).2.2 (by rw [← he]; exact List.mem_cons_self _ _)
        simp only [List.indexOf_cons_self, List.indexOf_cons_ne _ hyne]
        exact Nat.succ_pos _
      · refine List.Pairwise.imp_of_mem ?_ (ih (normTextS x :: seen))
        intro a b ha hb hab
        have hane : normTextS x ≠ a := by
          intro he
          exact (cleanListAux_mem xs _ a ha).2.2 (by rw [← he]; exact List.mem_cons_self _ _)
        have hbne : normTextS x ≠ b := by
          intro he
          exact (cleanListAux_mem xs _ b hb).2.2 (by rw [← he]; exact List.mem_cons_self _ _)
        simp only [List.indexOf_cons_ne _ hane, List.indexOf_cons_ne _ hbne]
        exact Nat.succ_lt_succ hab
    · rw [if_neg hc]
      have hyne : ∀ y ∈ cleanListAux xs seen, normTextS x ≠ y := by
        intro y hy
        obtain ⟨h1, _, h3⟩ := cleanListAux_mem xs seen y hy
        rcases not_and_or.mp hc with h | h
        · rw [not_not] at h
          intro he
          exact h1 (by rw [← he, h])
        · rw [not_not] at h
          intro he
          exact h3 (by rw [← he]; exact h)
      refine List.Pairwise.imp_of_mem ?_ (ih seen)
      intro a b ha hb hab
      simp only [List.indexOf_cons_ne _ (hyne a ha), List.indexOf_cons_ne _ (hyne b hb)]
      exact Nat.succ_lt_succ hab

/-- Claim C10: `clean_list` returns a list with no empty strings and no
duplicates; each element is an input element with internal whitespace
collapsed to single spaces and trimmed; every nonempty normalized input
element appears; and elements are kept in order of first occurrence (their
first indices in the normalized input are strictly increasing along the
output).  `parse_article` in both spiders passes `topics` and `tags` through
`clean_list`, so emitted records carry duplicate-free, blank-free lists. -/
theorem claim_C10_clean_list (xs : List String) :
    (clean_list xs).Nodup ∧
    (∀ y ∈ clean_list xs, y ≠ "" ∧ y ∈ xs.map normTextS) ∧
    (∀ y ∈ xs.map normTextS, y ≠ "" → y ∈ clean_list xs) ∧
    (clean_list xs).Pairwise
      (fun a b => (xs.map normTextS).indexOf a < (xs.map normTextS).indexOf b) := by
  refine ⟨cleanListAux_nodup xs [], ?_, ?_, cleanListAux_order xs []⟩
  · intro y hy
    obtain ⟨h1, h2, _⟩ := cleanListAux_mem xs [] y hy
    exact ⟨h1, h2⟩
  · intro y hy hne
    exact cleanListAux_complete xs [] y hy hne (List.not_mem_nil y)
